import Mathlib

/-!
Shallow embedding of the PigeonMC Minecraft server core (C++ sources) in
Lean 4, together with proofs settling the specification claims about the
byte buffer codec, the connection frame loop and phase machine, the chunk
store and its region persistence, the player registry, and the per-player
chunk view.

Machine integers are modelled as `Nat`/`Int` with explicit `% 2^w`
truncation where the C++ code truncates; fallible reads return
`Except BufErr`.  Concurrency (mutexes, atomics, the thread pool) is
modelled out: every operation acts on an explicit state value, and an
asynchronous job submission is recorded as a value describing the job.
-/

namespace PigeonMC

/-! ### Byte buffer (`mc::Buffer`, `src/unnamed/part_002`)

`data_`/`size_`/`read_pos_` become `data : List Nat` (bytes already
written; `size_` is its length, `write_pos_` always sits at the end on
the append-only paths used by the server) and `readPos`.  The
`std::runtime_error`s thrown by the read operations become `BufErr`. -/

/-- Error kinds raised by `Buffer` read operations. -/
inductive BufErr
  | underflow
  | varIntTooBig
  | badStringLength
deriving Repr, DecidableEq

structure Buffer where
  data : List Nat
  readPos : Nat
deriving Repr, DecidableEq

/-- `size()` — bytes written. -/
def Buffer.size (b : Buffer) : Nat := b.data.length

/-- `readable()` = `size_ - read_pos_`. -/
def Buffer.readable (b : Buffer) : Nat := b.size - b.readPos

/-- The bytes from the read cursor to the end of the written data. -/
def Buffer.remaining (b : Buffer) : List Nat := b.data.drop b.readPos

def Buffer.empty : Buffer := ⟨[], 0⟩

/-- `write_byte` (through `write`): appends one byte; the
`static_cast<byte>` of the C++ call sites is the `% 256`. -/
def Buffer.writeByte (b : Buffer) (v : Nat) : Buffer := ⟨b.data ++ [v % 256], b.readPos⟩

/-- Bulk `write(data, len)` — `memcpy` of raw bytes at the write cursor. -/
def Buffer.writeBytes (b : Buffer) (vs : List Nat) : Buffer := ⟨b.data ++ vs, b.readPos⟩

/-- `read_byte()`: throws on underflow, else returns `data_[read_pos_++]`. -/
def Buffer.readByte (b : Buffer) : Except BufErr (Nat × Buffer) :=
  match b.remaining with
  | [] => .error .underflow
  | v :: _ => .ok (v, ⟨b.data, b.readPos + 1⟩)

/-- Bulk `read(dest, len)`: copies `min len readable` bytes and advances
the cursor by that amount; never throws. -/
def Buffer.readBulk (b : Buffer) (len : Nat) : List Nat × Buffer :=
  let toRead := min len b.readable
  (b.remaining.take toRead, ⟨b.data, b.readPos + toRead⟩)

/-- Two's-complement reading of an unsigned accumulator as a signed
`width`-bit integer (the value of a C++ `iN` with those bits). -/
def toSigned (width : Nat) (n : Nat) : Int :=
  if n < 2 ^ (width - 1) then (n : Int) else (n : Int) - 2 ^ width

/-- The loop of `read_varint`: `shift` starts at 0 and grows by 7 per
continuation byte; `if (shift >= 32) throw` guards each iteration; the
`result |= (b & 0x7F) << shift` on `i32` is the accumulator step with its
32-bit truncation. -/
def Buffer.readVarintLoop (b : Buffer) (shift acc : Nat) : Except BufErr (Int × Buffer) :=
  if h : 32 ≤ shift then .error .varIntTooBig
  else
    match b.readByte with
    | .error e => .error e
    | .ok (v, b1) =>
      let acc1 := acc ||| ((v &&& 0x7F) <<< shift) % 2 ^ 32
      if v &&& 0x80 ≠ 0 then b1.readVarintLoop (shift + 7) acc1
      else .ok (toSigned 32 acc1, b1)
termination_by 32 - shift
decreasing_by omega

/-- `read_varint()`. -/
def Buffer.readVarint (b : Buffer) : Except BufErr (Int × Buffer) :=
  b.readVarintLoop 0 0

/-- The loop of `write_varint` on the `u32` reinterpretation `u`:
while `u ≥ 0x80` write `u | 0x80` (truncated to a byte) and shift by 7;
finally write the last group. -/
def Buffer.writeVarintLoop (b : Buffer) (u : Nat) : Buffer :=
  if h : u < 0x80 then b.writeByte u
  else (b.writeByte (u ||| 0x80)).writeVarintLoop (u >>> 7)
termination_by u
decreasing_by
  simp only [Nat.shiftRight_eq_div_pow]
  exact Nat.div_lt_self (by omega) (by norm_num)

/-- `write_varint(i32 value)`: `uvalue = static_cast<u32>(value)`. -/
def Buffer.writeVarint (b : Buffer) (v : Int) : Buffer :=
  b.writeVarintLoop ((v.emod (2 ^ 32)).toNat)

/-- The byte string `write_varint` appends for the `u32` value `u`
(helper mirroring `writeVarintLoop`). -/
def varintBytes (u : Nat) : List Nat :=
  if h : u < 0x80 then [u % 256]
  else (u ||| 0x80) % 256 :: varintBytes (u >>> 7)
termination_by u
decreasing_by
  simp only [Nat.shiftRight_eq_div_pow]
  exact Nat.div_lt_self (by omega) (by norm_num)

/-- Count of leading zeros of a 32-bit value (defined for `1 ≤ u < 2^32`),
used by the spec's encoded-length formula. -/
def clz32 (u : Nat) : Nat := 32 - (Nat.log2 u + 1)

/-! ### Basic buffer stepping lemmas -/

theorem Buffer.readByte_cons {b : Buffer} {v : Nat} {t : List Nat}
    (h : b.remaining = v :: t) :
    b.readByte = .ok (v, ⟨b.data, b.readPos + 1⟩) := by
  unfold Buffer.readByte
  rw [h]

theorem Buffer.remaining_succ {b : Buffer} {v : Nat} {t : List Nat}
    (h : b.remaining = v :: t) :
    (Buffer.mk b.data (b.readPos + 1)).remaining = t := by
  have h2 : (Buffer.mk b.data (b.readPos + 1)).remaining = b.remaining.drop 1 := by
    simp [Buffer.remaining, List.drop_drop]
  rw [h2, h]
  rfl

theorem Buffer.writeVarintLoop_spec (u : Nat) (b : Buffer) :
    (b.writeVarintLoop u).data = b.data ++ varintBytes u ∧
    (b.writeVarintLoop u).readPos = b.readPos := by
  induction u using Nat.strong_induction_on generalizing b with
  | _ u ih =>
    rw [Buffer.writeVarintLoop, varintBytes]
    split
    · simp [Buffer.writeByte]
    · next h =>
      have hlt : u >>> 7 < u := by
        simp only [Nat.shiftRight_eq_div_pow]
        exact Nat.div_lt_self (by omega) (by norm_num)
      obtain ⟨h1, h2⟩ := ih _ hlt (b.writeByte (u ||| 0x80))
      simp only [Buffer.writeByte] at h1 h2 ⊢
      rw [h1, h2]
      simp

/-! ### Arithmetic helpers for the 7-bit-group codec -/

theorem lor_shiftLeft_eq_add {acc g n : Nat} (hacc : acc < 2 ^ n) :
    acc ||| g <<< n = acc + g * 2 ^ n := by
  have h := Nat.mul_add_lt_is_or hacc g
  rw [Nat.shiftLeft_eq, Nat.lor_comm, Nat.mul_comm g (2 ^ n), ← h]
  ring

theorem and_two_pow_eq_zero {x : Nat} {k : Nat} (h : x < 2 ^ k) : x &&& 2 ^ k = 0 := by
  rw [Nat.and_two_pow, Nat.testBit_lt_two_pow h]
  simp

theorem or_high_and_high (u : Nat) : ((u ||| 0x80) % 256) &&& 0x80 = 0x80 := by
  have hbit : ((u ||| 128) % 256).testBit 7 = true := by
    rw [show (256 : Nat) = 2 ^ 8 by norm_num, Nat.testBit_mod_two_pow]
    simp only [Nat.testBit_or]
    have h128 : Nat.testBit 128 7 = true := by decide
    simp [h128]
  calc ((u ||| 0x80) % 256) &&& 0x80
      = ((u ||| 128) % 256) &&& 2 ^ 7 := by norm_num
    _ = (((u ||| 128) % 256).testBit 7).toNat * 2 ^ 7 := Nat.and_two_pow _ 7
    _ = 0x80 := by rw [hbit]; rfl

theorem and_7f_eq_mod (x : Nat) : x &&& 0x7F = x % 128 := by
  have h := Nat.and_pow_two_sub_one_eq_mod x 7
  norm_num at h
  exact h

theorem or_high_mod_low (u : Nat) : ((u ||| 0x80) % 256) % 128 = u % 128 := by
  rw [Nat.mod_mod_of_dvd _ (by norm_num : (128 : Nat) ∣ 256)]
  have h2 := Nat.and_distrib_right u 128 127
  have h3 : (128 : Nat) &&& 127 = 0 := by decide
  have h4 : u &&& 127 = u % 128 := and_7f_eq_mod u
  have h5 : (u ||| 128) &&& 127 = (u ||| 128) % 128 := and_7f_eq_mod (u ||| 128)
  calc (u ||| 0x80) % 128 = (u ||| 128) &&& 127 := h5.symm
    _ = (u &&& 127) ||| (128 &&& 127) := h2
    _ = u % 128 := by rw [h3, h4, Nat.or_zero]

/-! ### VarInt round trip -/

theorem Buffer.readVarintLoop_of_bytes :
    ∀ (u : Nat) (shift acc : Nat) (b : Buffer) (rest : List Nat),
    u < 2 ^ (32 - shift) → shift ≤ 28 → shift % 7 = 0 → acc < 2 ^ shift →
    b.remaining = varintBytes u ++ rest →
    b.readVarintLoop shift acc =
      .ok (toSigned 32 (acc + u * 2 ^ shift),
           ⟨b.data, b.readPos + (varintBytes u).length⟩) := by
  intro u
  induction u using Nat.strong_induction_on with
  | _ u ih =>
    intro shift acc b rest hu hs h7 hacc hrem
    rw [Buffer.readVarintLoop]
    rw [varintBytes] at hrem ⊢
    split at hrem
    · next hsmall =>
      -- terminal group: u < 0x80
      have humod : u % 256 = u := Nat.mod_eq_of_lt (by omega)
      rw [humod] at hrem
      rw [dif_neg (by omega)]
      rw [Buffer.readByte_cons hrem]
      have hand : u &&& 0x80 = 0 := by
        have : u &&& 2 ^ 7 = 0 := and_two_pow_eq_zero (by omega)
        simpa using this
      have hgrp : u &&& 0x7F = u := by
        rw [and_7f_eq_mod, Nat.mod_eq_of_lt (by omega)]
      simp only [hand, hgrp, ne_eq, not_true_eq_false, if_false]
      have hclip : (u <<< shift) % 2 ^ 32 = u * 2 ^ shift := by
        rw [Nat.shiftLeft_eq, Nat.mod_eq_of_lt]
        calc u * 2 ^ shift < 2 ^ (32 - shift) * 2 ^ shift :=
              (Nat.mul_lt_mul_right (Nat.two_pow_pos shift)).2 hu
          _ = 2 ^ 32 := by rw [← pow_add]; congr 1; omega
      rw [hclip]
      rw [show acc ||| u * 2 ^ shift = acc + u * 2 ^ shift by
        have := lor_shiftLeft_eq_add (g := u) (n := shift) hacc
        rwa [Nat.shiftLeft_eq] at this]
      rw [dif_pos hsmall]
      simp
    · next hbig =>
      -- continuation group: u ≥ 0x80
      push_neg at hbig
      have hs21 : shift ≤ 21 := by
        have h27 : 2 ^ 7 ≤ 2 ^ (32 - shift) :=
          le_trans (show (2 : Nat) ^ 7 ≤ u by norm_num; omega) (le_of_lt hu)
        have : 7 ≤ 32 - shift := by
          by_contra hc
          push_neg at hc
          have : (2 : Nat) ^ (32 - shift) ≤ 2 ^ 6 :=
            Nat.pow_le_pow_right (by norm_num) (by omega)
          omega
        omega
      rw [dif_neg (by omega)]
      rw [Buffer.readByte_cons hrem]
      have hand : ((u ||| 0x80) % 256) &&& 0x80 = 0x80 := or_high_and_high u
      have hgrp : ((u ||| 0x80) % 256) &&& 0x7F = u % 128 := by
        rw [and_7f_eq_mod, or_high_mod_low]
      simp only [hand, hgrp]
      rw [if_pos (by norm_num)]
      have hclip : ((u % 128) <<< shift) % 2 ^ 32 = (u % 128) * 2 ^ shift := by
        rw [Nat.shiftLeft_eq, Nat.mod_eq_of_lt]
        calc (u % 128) * 2 ^ shift < 128 * 2 ^ shift :=
              (Nat.mul_lt_mul_right (Nat.two_pow_pos shift)).2 (Nat.mod_lt u (by norm_num))
          _ = 2 ^ (shift + 7) := by rw [pow_add]; ring
          _ ≤ 2 ^ 32 := Nat.pow_le_pow_right (by norm_num) (by omega)
      rw [hclip]
      rw [show acc ||| (u % 128) * 2 ^ shift = acc + (u % 128) * 2 ^ shift by
        have := lor_shiftLeft_eq_add (g := u % 128) (n := shift) hacc
        rwa [Nat.shiftLeft_eq] at this]
      -- recursive call on u >>> 7 at shift + 7
      have hlt : u >>> 7 < u := by
        simp only [Nat.shiftRight_eq_div_pow]
        exact Nat.div_lt_self (by omega) (by norm_num)
      have hrem1 : (Buffer.mk b.data (b.readPos + 1)).remaining =
          varintBytes (u >>> 7) ++ rest := Buffer.remaining_succ hrem
      have hu1 : u >>> 7 < 2 ^ (32 - (shift + 7)) := by
        simp only [Nat.shiftRight_eq_div_pow]
        rw [Nat.div_lt_iff_lt_mul (by norm_num : 0 < (2 : Nat) ^ 7)]
        calc u < 2 ^ (32 - shift) := hu
          _ = 2 ^ (32 - (shift + 7)) * 2 ^ 7 := by rw [← pow_add]; congr 1; omega
      have hacc1 : acc + (u % 128) * 2 ^ shift < 2 ^ (shift + 7) := by
        have hle : (u % 128) * 2 ^ shift ≤ 127 * 2 ^ shift :=
          Nat.mul_le_mul_right _ (by omega)
        have hp : (2 : Nat) ^ (shift + 7) = 128 * 2 ^ shift := by rw [pow_add]; ring
        omega
      rw [ih _ hlt (shift + 7) _ _ rest hu1 (by omega) (by omega) hacc1 hrem1]
      have hval : acc + (u % 128) * 2 ^ shift + (u >>> 7) * 2 ^ (shift + 7) =
          acc + u * 2 ^ shift := by
        simp only [Nat.shiftRight_eq_div_pow]
        calc acc + (u % 128) * 2 ^ shift + (u / 2 ^ 7) * 2 ^ (shift + 7)
            = acc + (u % 128 + 128 * (u / 128)) * 2 ^ shift := by
              have h27 : (2 : Nat) ^ 7 = 128 := by norm_num
              rw [pow_add, h27]
              ring
          _ = acc + u * 2 ^ shift := by rw [Nat.mod_add_div]
      rw [hval, dif_neg (show ¬u < 0x80 by omega)]
      have hlen : b.readPos + 1 + (varintBytes (u >>> 7)).length =
          b.readPos + ((u ||| 0x80) % 256 :: varintBytes (u >>> 7)).length := by
        simp [List.length_cons]
        omega
      rw [hlen]

/-- Length of the VarInt encoding, for `u ≥ 1`, is `⌈(log2 u + 1)/7⌉`. -/
theorem varintBytes_length_pos :
    ∀ u : Nat, 1 ≤ u → (varintBytes u).length = (Nat.log2 u + 7) / 7 := by
  intro u
  induction u using Nat.strong_induction_on with
  | _ u ih =>
    intro h1
    rw [varintBytes]
    split
    · next h =>
      have hlog : Nat.log2 u < 7 := by
        rw [Nat.log2_lt (by omega)]
        norm_num
        omega
      simp only [List.length_cons, List.length_nil]
      omega
    · next h =>
      push_neg at h
      have hlt : u >>> 7 < u := by
        simp only [Nat.shiftRight_eq_div_pow]
        exact Nat.div_lt_self (by omega) (by norm_num)
      have hpos : 1 ≤ u >>> 7 := by
        simp only [Nat.shiftRight_eq_div_pow]
        exact Nat.one_le_div_iff (by norm_num) |>.2 (by norm_num at h ⊢; omega)
      have hge : 7 ≤ Nat.log2 u := by
        rw [Nat.le_log2 (by omega)]
        norm_num
        omega
      have hlog : Nat.log2 (u >>> 7) = Nat.log2 u - 7 := by
        have hne : u >>> 7 ≠ 0 := by omega
        apply Nat.le_antisymm
        · by_contra hc
          push_neg at hc
          have h2 : 2 ^ (Nat.log2 u - 7 + 1) ≤ u >>> 7 := (Nat.le_log2 hne).1 hc
          have h3 : 2 ^ (Nat.log2 u - 7 + 1) * 2 ^ 7 ≤ u := by
            rw [Nat.shiftRight_eq_div_pow] at h2
            exact (Nat.le_div_iff_mul_le (by norm_num)).1 h2
          have h4 : u < 2 ^ (Nat.log2 u + 1) := Nat.lt_log2_self
          rw [← pow_add] at h3
          have : Nat.log2 u - 7 + 1 + 7 = Nat.log2 u + 1 := by omega
          rw [this] at h3
          omega
        · rw [Nat.le_log2 hne, Nat.shiftRight_eq_div_pow]
          rw [Nat.le_div_iff_mul_le (by norm_num : 0 < (2:Nat) ^ 7), ← pow_add]
          have : Nat.log2 u - 7 + 7 = Nat.log2 u := by omega
          rw [this]
          exact Nat.log2_self_le (by omega)
      rw [List.length_cons, ih _ hlt hpos, hlog]
      omega

theorem or_one_eq (u : Nat) : u ||| 1 = if u % 2 = 0 then u + 1 else u := by
  have heven : ∀ k : Nat, 2 * k ||| 1 = 2 * k + 1 := by
    intro k
    have h := Nat.mul_add_lt_is_or (show (1 : Nat) < 2 ^ 1 by norm_num) k
    simpa using h.symm
  rcases Nat.mod_two_eq_zero_or_one u with h | h
  · have hu : u = 2 * (u / 2) := by omega
    rw [if_pos h]
    conv_lhs => rw [hu]
    rw [heven]
    omega
  · have hu : u = 2 * (u / 2) + 1 := by omega
    rw [if_neg (by omega)]
    conv_lhs => rw [hu, ← heven (u / 2)]
    rw [Nat.lor_assoc]
    simp [heven]
    omega

theorem log2_or_one (u : Nat) (h1 : 1 ≤ u) : Nat.log2 (u ||| 1) = Nat.log2 u := by
  rw [or_one_eq]
  split
  · next heven =>
    have h2 : 2 ≤ u := by omega
    apply Nat.le_antisymm
    · have hub : u + 1 < 2 ^ (Nat.log2 u + 1) := by
        have h4 : u < 2 ^ (Nat.log2 u + 1) := Nat.lt_log2_self
        have hpow : 2 ^ (Nat.log2 u + 1) = 2 * 2 ^ Nat.log2 u := by ring
        omega
      have := (Nat.log2_lt (by omega)).2 hub
      omega
    · rw [Nat.le_log2 (by omega)]
      exact le_trans (Nat.log2_self_le (by omega)) (by omega)
  · rfl

/-- C3.  For every signed 32-bit integer `v`, `read_varint` applied to
the bytes produced by `write_varint v` returns `v`, and the number of
bytes produced equals `⌈(32 − clz(v | 1))/7⌉`, which is at most 5. -/
theorem c3_varint_roundtrip (v : Int) (hlo : -2 ^ 31 ≤ v) (hhi : v < 2 ^ 31) :
    (Buffer.empty.writeVarint v).readVarint =
      .ok (v, ⟨(Buffer.empty.writeVarint v).data, (Buffer.empty.writeVarint v).size⟩) ∧
    (Buffer.empty.writeVarint v).size =
      (32 - clz32 ((v.emod (2 ^ 32)).toNat ||| 1) + 6) / 7 ∧
    (Buffer.empty.writeVarint v).size ≤ 5 := by
  obtain ⟨u, hu⟩ : ∃ u : Nat, (v.emod (2 ^ 32)).toNat = u := ⟨_, rfl⟩
  rw [show Buffer.writeVarint Buffer.empty v = Buffer.empty.writeVarintLoop u by
    rw [Buffer.writeVarint, hu]]
  rw [hu]
  have hcast : (u : Int) = v % 4294967296 := by
    rw [← hu, show ((2 : Int) ^ 32) = 4294967296 by norm_num]
    exact Int.toNat_of_nonneg (Int.emod_nonneg v (by norm_num))
  have hu32 : u < 2 ^ 32 := by
    have h32 : ((2 : Nat) ^ 32 : Nat) = 4294967296 := by norm_num
    omega
  have hdata : (Buffer.empty.writeVarintLoop u).data = varintBytes u ∧
      (Buffer.empty.writeVarintLoop u).readPos = 0 := by
    have := Buffer.writeVarintLoop_spec u Buffer.empty
    simpa [Buffer.empty] using this
  have hsigned : toSigned 32 u = v := by
    have hlo' : -2147483648 ≤ v := by
      have : ((2 : Int) ^ 31) = 2147483648 := by norm_num
      omega
    have hhi' : v < 2147483648 := by
      have : ((2 : Int) ^ 31) = 2147483648 := by norm_num
      omega
    unfold toSigned
    split
    · next hcond =>
      have h31 : (2 : Nat) ^ (32 - 1) = 2147483648 := by norm_num
      omega
    · next hcond =>
      push_neg at hcond
      have h31 : (2 : Nat) ^ (32 - 1) = 2147483648 := by norm_num
      rw [show ((2 : Int) ^ 32) = 4294967296 by norm_num]
      omega
  have hlen : (varintBytes u).length = (Nat.log2 (u ||| 1) + 7) / 7 := by
    rcases Nat.eq_zero_or_pos u with h0 | hpos
    · subst h0
      rw [show (0 : Nat) ||| 1 = 1 by rfl]
      rw [varintBytes]
      simp [Nat.log2]
    · rw [log2_or_one u hpos]
      exact varintBytes_length_pos u hpos
  have hlog31 : Nat.log2 (u ||| 1) ≤ 31 := by
    have hne : u ||| 1 ≠ 0 := by
      rw [or_one_eq]
      split <;> omega
    have hlt : u ||| 1 < 2 ^ 32 := Nat.or_lt_two_pow hu32 (by norm_num)
    have := (Nat.log2_lt hne).2 hlt
    omega
  refine ⟨?_, ?_, ?_⟩
  · unfold Buffer.readVarint
    have hrem : (Buffer.empty.writeVarintLoop u).remaining = varintBytes u ++ [] := by
      simp [Buffer.remaining, hdata.1, hdata.2]
    have := Buffer.readVarintLoop_of_bytes u 0 0 (Buffer.empty.writeVarintLoop u) []
      (by simpa using hu32) (by norm_num) (by norm_num) (by norm_num) hrem
    rw [this]
    simp [hsigned, hdata.1, hdata.2, Buffer.size]
  · rw [Buffer.size, hdata.1, hlen, clz32]
    omega
  · rw [Buffer.size, hdata.1, hlen]
    omega

/-- C3 witness: `write_varint 300` produces exactly the two bytes
`0xAC 0x02` and reading them back yields 300 (spec boundary scenario 1). -/
theorem c3_varint_roundtrip_witness :
    (Buffer.empty.writeVarint 300).readVarint =
      .ok (300, ⟨(Buffer.empty.writeVarint 300).data, (Buffer.empty.writeVarint 300).size⟩) ∧
    (Buffer.empty.writeVarint 300).data = [0xAC, 0x02] := by
  refine ⟨(c3_varint_roundtrip 300 (by norm_num) (by norm_num)).1, ?_⟩
  rw [Buffer.writeVarint,
      show ((300 : Int).emod (2 ^ 32)) = 300 from Int.emod_eq_of_lt (by norm_num) (by norm_num),
      show ((300 : Int).toNat) = 300 from rfl,
      Buffer.writeVarintLoop, dif_neg (by norm_num), show (300 : Nat) >>> 7 = 2 by decide,
      Buffer.writeVarintLoop, dif_pos (by norm_num)]
  decide

/-! ### `read_string` (claim C8) -/

/-- `read_string()`: reads a VarInt length, throws `badStringLength` when
it lies outside `[0, 32767]`, then pre-allocates `length` NUL bytes and
fills them with the bulk `read` — which copies only `min len readable`
bytes and never throws, leaving the tail NUL on a short buffer. -/
def Buffer.readString (b : Buffer) : Except BufErr (List Nat × Buffer) :=
  match b.readVarint with
  | .error e => .error e
  | .ok (len, b1) =>
    if len < 0 ∨ 32767 < len then .error .badStringLength
    else
      let r := b1.readBulk len.toNat
      .ok (r.1 ++ List.replicate (len.toNat - r.1.length) 0, r.2)

def exceptIsOk : Except ε α → Bool
  | .ok _ => true
  | .error _ => false

instance exceptDecEq {ε α : Type} [DecidableEq ε] [DecidableEq α] :
    DecidableEq (Except ε α) := fun a b =>
  match a, b with
  | .ok x, .ok y =>
    if h : x = y then .isTrue (by rw [h]) else .isFalse (by simp [h])
  | .error x, .error y =>
    if h : x = y then .isTrue (by rw [h]) else .isFalse (by simp [h])
  | .ok _, .error _ => .isFalse (by simp)
  | .error _, .ok _ => .isFalse (by simp)

/-- The C8 claim as stated: `read_string` fails exactly when the decoded
length is out of range or fewer bytes than the decoded length remain. -/
def c8ReadStringClaim : Prop :=
  ∀ (b b1 : Buffer) (len : Int), b.readVarint = .ok (len, b1) →
    (exceptIsOk b.readString = false ↔
      (len < 0 ∨ 32767 < len ∨ (b1.readable : Int) < len))

theorem readVarint_twoBytes :
    (Buffer.mk [2, 65] 0).readVarint = .ok (2, Buffer.mk [2, 65] 1) := by
  rw [Buffer.readVarint, Buffer.readVarintLoop]
  decide

/-- C8 counterexample: on the buffer `[0x02, 0x41]` the decoded length is
2 but only one byte remains; `read_string` nevertheless succeeds,
returning `"A\x00"`. -/
theorem c8_read_string_counterexample : ¬c8ReadStringClaim := by
  intro hclaim
  have h := hclaim (Buffer.mk [2, 65] 0) (Buffer.mk [2, 65] 1) 2 readVarint_twoBytes
  have heval : (Buffer.mk [2, 65] 0).readString = .ok ([65, 0], Buffer.mk [2, 65] 2) := by
    unfold Buffer.readString
    rw [readVarint_twoBytes]
    decide
  rw [heval] at h
  have h2 : ((Buffer.mk [2, 65] 1).readable : Int) < 2 := by decide
  exact absurd (h.2 (Or.inr (Or.inr h2))) (by simp [exceptIsOk])

/-- C8 as amended: `read_string` fails iff the decoded length is negative
or exceeds 32767; a payload shorter than the decoded length does *not*
fail — the returned string still has exactly `length` bytes, the unread
tail being NUL. -/
theorem Buffer.readString_eq {b b1 : Buffer} {len : Int}
    (h : b.readVarint = .ok (len, b1)) :
    b.readString =
      if len < 0 ∨ 32767 < len then .error .badStringLength
      else
        .ok ((b1.readBulk len.toNat).1 ++
              List.replicate (len.toNat - (b1.readBulk len.toNat).1.length) 0,
             (b1.readBulk len.toNat).2) := by
  unfold Buffer.readString
  rw [h]

theorem c8_read_string_amended (b b1 : Buffer) (len : Int)
    (h : b.readVarint = .ok (len, b1)) :
    (exceptIsOk b.readString = false ↔ (len < 0 ∨ 32767 < len)) ∧
    (∀ s b2, b.readString = .ok (s, b2) → s.length = len.toNat) := by
  rw [Buffer.readString_eq h]
  constructor
  · by_cases hr : len < 0 ∨ 32767 < len
    · rw [if_pos hr]
      exact iff_of_true rfl hr
    · rw [if_neg hr]
      exact iff_of_false (by simp [exceptIsOk]) hr
  · intro s b2 hok
    by_cases hr : len < 0 ∨ 32767 < len
    · rw [if_pos hr] at hok
      exact absurd hok (by simp)
    · rw [if_neg hr] at hok
      simp only [Except.ok.injEq, Prod.mk.injEq] at hok
      obtain ⟨hs, -⟩ := hok
      rw [← hs]
      rw [List.length_append, List.length_replicate]
      have hlen : (b1.readBulk len.toNat).1.length ≤ len.toNat := by
        rw [Buffer.readBulk]
        simp [List.length_take]
      omega

/-- C8 amended witness at the concrete short buffer `[0x02, 0x41]`. -/
theorem c8_read_string_amended_witness :
    (exceptIsOk (Buffer.mk [2, 65] 0).readString = false ↔
      ((2 : Int) < 0 ∨ 32767 < (2 : Int))) ∧
    (∀ s b2, (Buffer.mk [2, 65] 0).readString = .ok (s, b2) → s.length = (2 : Int).toNat) :=
  c8_read_string_amended (Buffer.mk [2, 65] 0) (Buffer.mk [2, 65] 1) 2 readVarint_twoBytes

/-! ### The frame loop of `Connection::handle_read` (claim C2)

One iteration of the `while (read_buffer_.readable() > 0)` loop:
`initial_pos` is set to `read_buffer_.size()`, a VarInt frame length is
parsed (advancing the read cursor), and if enough bytes remain the slice
`Buffer(read_buffer_.data() + initial_pos, packet_length)` is handed to
`process_packet`; a decode throw closes the connection.  The slice is
recorded by its offset and length into `data`. -/

inductive FrameIter
  | closed
  | awaitMore (b : Buffer)
  | frame (sliceOffset sliceLen : Nat) (b : Buffer)
deriving Repr, DecidableEq

def frameLoopIter (b : Buffer) : FrameIter :=
  let initialPos := b.size
  match b.readVarint with
  | .error _ => .closed
  | .ok (len, b1) =>
    if b1.readable < (len % 2 ^ 64).toNat then .awaitMore b1
    else .frame initialPos (len % 2 ^ 64).toNat b1

/-- The C2 claim as stated: whenever the frame loop consumes one packet
frame, the continuing cursor sits at the frame's end
(`start-of-frame + length`) and the slice handed to the decoder starts at
the frame's first byte. -/
def c2FrameLoopClaim : Prop :=
  ∀ (b b1 : Buffer) (len : Int), b.readVarint = .ok (len, b1) →
    ∀ (off n : Nat) (b2 : Buffer), frameLoopIter b = .frame off n b2 →
      b2.readPos = b1.readPos + n ∧ off = b1.readPos

theorem readVarint_oneZero :
    (Buffer.mk [1, 0] 0).readVarint = .ok (1, Buffer.mk [1, 0] 1) := by
  rw [Buffer.readVarint, Buffer.readVarintLoop]
  decide

/-- C2: on the single complete frame `[0x01, 0x00]` (length 1, id byte 0)
the loop hands the decoder the slice at offset 2 — one past the written
data — and leaves the cursor at 1, not at the frame's end 2; the claim
fails on the code. -/
theorem c2_frame_loop_cursor_bug :
    frameLoopIter (Buffer.mk [1, 0] 0) = .frame 2 1 (Buffer.mk [1, 0] 1) ∧
    ¬c2FrameLoopClaim := by
  have heval : frameLoopIter (Buffer.mk [1, 0] 0) = .frame 2 1 (Buffer.mk [1, 0] 1) := by
    unfold frameLoopIter
    rw [readVarint_oneZero]
    decide
  refine ⟨heval, fun hclaim => ?_⟩
  have h := hclaim (Buffer.mk [1, 0] 0) (Buffer.mk [1, 0] 1) 1 readVarint_oneZero
    2 1 (Buffer.mk [1, 0] 1) heval
  omega

/-! ### Connection phase machine (claim C4)

`ConnectionState` is an `enum class : i32` (HANDSHAKING = 0, STATUS = 1,
LOGIN = 2, PLAY = 3); `Connection::handle_handshake_packet` assigns
`state_ = static_cast<ConnectionState>(next_state)` without validating
`next_state`, so the phase is modelled as a raw `Int`.  `connStep`
embeds the state change performed by `Connection::handle_packet`'s
dispatch and the per-phase handlers (`handle_handshake_packet`,
`handle_status_packet` — which only replies and closes, never changes
`state_` — and `handle_login_packet` in its final form in
`minecraft_server_complete.cpp`, whose checks close the connection and
whose success path sets `state_ = PLAY`); `handle_play_packet` never
writes `state_`.  Environment reads (username validation, the
server-full check against the player manager and config) are the
`ConnEnv` parameters. -/

abbrev UUID := List Nat

inductive InboundPacket
  | handshake (protocolVersion nextState : Int)
  | statusRequest
  | pingRequest (payload : Int)
  | loginStart (username : List Nat) (uuid : UUID)
  | keepAlive (id : Int)
  | playerPosition
deriving Repr, DecidableEq

structure ConnEnv where
  usernameValid : List Nat → Bool
  serverFull : Bool

def MINECRAFT_PROTOCOL_VERSION : Int := 763

/-- The `(state_, closed_)` change of processing one inbound packet. -/
def connStep (env : ConnEnv) (s : Int) (closed : Bool) (p : InboundPacket) : Int × Bool :=
  if s = 0 then
    match p with
    | .handshake proto next =>
      if proto ≠ MINECRAFT_PROTOCOL_VERSION then (s, true) else (next, closed)
    | _ => (s, closed)
  else if s = 1 then
    match p with
    | .pingRequest _ => (s, true)
    | _ => (s, closed)
  else if s = 2 then
    match p with
    | .loginStart name _ =>
      if ¬env.usernameValid name then (s, true)
      else if env.serverFull then (s, true)
      else (3, closed)
    | _ => (s, closed)
  else (s, closed)

/-- The C4 claim as stated: from any of the four phases the next phase
stays among the four, never goes back, never jumps HANDSHAKING → PLAY,
and PLAY is absorbing. -/
def c4PhaseMonotoneClaim : Prop :=
  ∀ (env : ConnEnv) (s : Int) (c : Bool) (p : InboundPacket),
    (s = 0 ∨ s = 1 ∨ s = 2 ∨ s = 3) →
    ((connStep env s c p).1 = 0 ∨ (connStep env s c p).1 = 1 ∨
     (connStep env s c p).1 = 2 ∨ (connStep env s c p).1 = 3) ∧
    (s = 0 → (connStep env s c p).1 ≠ 3) ∧
    (s = 1 → (connStep env s c p).1 ≠ 0) ∧
    (s = 2 → (connStep env s c p).1 ≠ 0 ∧ (connStep env s c p).1 ≠ 1) ∧
    (s = 3 → (connStep env s c p).1 = 3)

/-- C4 counterexample: a Handshake with matching protocol 763 and
`next_state = 3` moves HANDSHAKING directly to PLAY (and `next_state = 7`
would leave the four phases entirely): the cast is unvalidated. -/
theorem c4_phase_claim_counterexample : ¬c4PhaseMonotoneClaim := by
  intro h
  have h2 := h ⟨fun _ => true, false⟩ 0 false (.handshake 763 3) (Or.inl rfl)
  exact h2.2.1 rfl (by decide)

/-- C4 as amended: transitions out of STATUS, LOGIN and PLAY are forward
only (STATUS and PLAY never change phase, LOGIN moves at most to PLAY),
but a Handshake with matching protocol version sets the phase to the raw
`next_state` value — which may be PLAY directly, or any value outside
the four phases. -/
theorem c4_phase_transitions_amended (env : ConnEnv) (s : Int) (c : Bool) (p : InboundPacket) :
    (s = 1 → (connStep env s c p).1 = 1) ∧
    (s = 2 → (connStep env s c p).1 = 2 ∨ (connStep env s c p).1 = 3) ∧
    (s = 3 → (connStep env s c p).1 = 3) ∧
    (s = 0 → (connStep env s c p).1 = 0 ∨
      ∃ proto next, p = .handshake proto next ∧ proto = MINECRAFT_PROTOCOL_VERSION ∧
        (connStep env s c p).1 = next) := by
  refine ⟨?_, ?_, ?_, ?_⟩ <;> intro hs <;> subst hs
  · cases p <;> simp [connStep]
  · cases p <;> simp [connStep]
    next name uuid =>
      by_cases hv : env.usernameValid name
      · by_cases hf : env.serverFull
        · simp [hv, hf]
        · simp [hv, hf]
      · simp [hv]
  · cases p <;> simp [connStep]
  · cases p <;> simp [connStep]
    next proto next =>
      by_cases hp : proto = MINECRAFT_PROTOCOL_VERSION
      · simp [hp]
      · simp [hp]

/-- C4 amended witness: the login success step LOGIN → PLAY and the
handshake step HANDSHAKING → `next_state` at `next_state = 3`. -/
theorem c4_phase_transitions_amended_witness :
    ((connStep ⟨fun _ => true, false⟩ 2 false (.loginStart [65] [])).1 = 2 ∨
     (connStep ⟨fun _ => true, false⟩ 2 false (.loginStart [65] [])).1 = 3) ∧
    ((connStep ⟨fun _ => true, false⟩ 0 false (.handshake 763 3)).1 = 0 ∨
      ∃ proto next, (InboundPacket.handshake 763 3 : InboundPacket) = .handshake proto next ∧
        proto = MINECRAFT_PROTOCOL_VERSION ∧
        (connStep ⟨fun _ => true, false⟩ 0 false (.handshake 763 3)).1 = next) :=
  ⟨(c4_phase_transitions_amended ⟨fun _ => true, false⟩ 2 false (.loginStart [65] [])).2.1 rfl,
   (c4_phase_transitions_amended ⟨fun _ => true, false⟩ 0 false (.handshake 763 3)).2.2.2 rfl⟩

/-! ### Blocks, chunk sections, chunks
(`src/src/world/block.hpp`, `src/src/world/chunk.hpp`)

A `ChunkSection` owns 4096 blocks (index `(y*16+z)*16+x`), two
2048-byte nibble arrays and an `i16 block_count`; arrays are modelled as
functions from the index.  A `Chunk` owns `std::array<unique_ptr<ChunkSection>, 24>`,
modelled as a `List (Option ChunkSection)` of length 24, plus the
`loaded_`/`dirty_` flags (timestamps and the mutex are modelled out). -/

def AIR : Nat := 0
def STONE : Nat := 1
def GRASS_BLOCK : Nat := 2
def DIRT : Nat := 3
def BEDROCK : Nat := 7

structure Block where
  id : Nat
deriving Repr, DecidableEq

/-- `Block::is_air()`. -/
def Block.isAir (b : Block) : Bool := b.id = AIR

def BLOCKS_PER_SECTION : Int := 16 * 16 * 16

structure ChunkSection where
  blocks : Nat → Block
  blockLight : Nat → Nat
  skyLight : Nat → Nat
  blockCount : Int

/-- The `ChunkSection()` constructor: all blocks air, block light 0,
sky light `0xFF` bytes, `block_count` 0. -/
def ChunkSection.init : ChunkSection :=
  ⟨fun _ => ⟨AIR⟩, fun _ => 0, fun _ => 0xFF, 0⟩

/-- `(y * SECTION_SIZE + z) * SECTION_SIZE + x`. -/
def sectionIndex (x y z : Int) : Int := (y * 16 + z) * 16 + x

def ChunkSection.get_block (s : ChunkSection) (x y z : Int) : Block :=
  let index := sectionIndex x y z
  if 0 ≤ index ∧ index < BLOCKS_PER_SECTION then s.blocks index.toNat else ⟨AIR⟩

def ChunkSection.set_block (s : ChunkSection) (x y z : Int) (b : Block) : ChunkSection :=
  let index := sectionIndex x y z
  if 0 ≤ index ∧ index < BLOCKS_PER_SECTION then
    let old := s.blocks index.toNat
    { s with
      blocks := fun i => if i = index.toNat then b else s.blocks i
      blockCount :=
        if old.isAir && !b.isAir then s.blockCount + 1
        else if !old.isAir && b.isAir then s.blockCount - 1
        else s.blockCount }
  else s

def ChunkSection.get_sky_light (s : ChunkSection) (x y z : Int) : Nat :=
  let index := sectionIndex x y z
  if index < 0 ∨ BLOCKS_PER_SECTION ≤ index then 0
  else
    let byteIdx := index.toNat / 2
    if index.toNat % 2 = 1 then s.skyLight byteIdx >>> 4 else s.skyLight byteIdx &&& 0xF

def ChunkSection.get_block_light (s : ChunkSection) (x y z : Int) : Nat :=
  let index := sectionIndex x y z
  if index < 0 ∨ BLOCKS_PER_SECTION ≤ index then 0
  else
    let byteIdx := index.toNat / 2
    if index.toNat % 2 = 1 then s.blockLight byteIdx >>> 4 else s.blockLight byteIdx &&& 0xF

def WORLD_MIN_Y : Int := -64
def WORLD_MAX_Y : Int := 320
def SECTIONS_PER_CHUNK : Int := (WORLD_MAX_Y - WORLD_MIN_Y) / 16

structure ChunkPos where
  x : Int
  z : Int
deriving Repr, DecidableEq

structure Chunk where
  position : ChunkPos
  sections : List (Option ChunkSection)
  loaded : Bool
  dirty : Bool

/-- The `Chunk(pos)` constructor: no section allocated, not loaded, not
dirty. -/
def Chunk.init (pos : ChunkPos) : Chunk := ⟨pos, List.replicate 24 none, false, false⟩

/-- `(y - WORLD_MIN_Y) / 16` with C++ truncating division. -/
def get_section_index (y : Int) : Int := (y - WORLD_MIN_Y).tdiv 16

def Chunk.get_block (c : Chunk) (x y z : Int) : Block :=
  let idx := get_section_index y
  if idx < 0 ∨ SECTIONS_PER_CHUNK ≤ idx then ⟨AIR⟩
  else
    match c.sections.getD idx.toNat none with
    | none => ⟨AIR⟩
    | some s => s.get_block x (y - (idx * 16 + WORLD_MIN_Y)) z

def Chunk.get_sky_light (c : Chunk) (x y z : Int) : Nat :=
  let idx := get_section_index y
  if idx < 0 ∨ SECTIONS_PER_CHUNK ≤ idx then 0
  else
    match c.sections.getD idx.toNat none with
    | none => 15
    | some s => s.get_sky_light x (y - (idx * 16 + WORLD_MIN_Y)) z

/-- `Chunk::set_block`: `get_or_create_section` returns `nullptr` outside
the section range (the write is dropped and `dirty_` untouched),
otherwise allocates a fresh section on demand and writes through it. -/
def Chunk.set_block (c : Chunk) (x y z : Int) (b : Block) : Chunk :=
  let idx := get_section_index y
  if idx < 0 ∨ SECTIONS_PER_CHUNK ≤ idx then c
  else
    let s := (c.sections.getD idx.toNat none).getD ChunkSection.init
    let s1 := s.set_block x (y - (idx * 16 + WORLD_MIN_Y)) z b
    { c with sections := c.sections.set idx.toNat (some s1), dirty := true }

/-! ### Claim C10: sky light of an untouched chunk -/

theorem tdiv_16_eq (a : Int) : a.tdiv 16 = if 0 ≤ a then a / 16 else -(-a / 16) := by
  split
  · next h => exact Int.tdiv_eq_ediv h (by norm_num)
  · next h =>
    conv_lhs => rw [show a = -(-a) by ring]
    rw [Int.neg_tdiv, Int.tdiv_eq_ediv (by omega) (by norm_num)]

theorem replicate_getD_none {α : Type} (n i : Nat) :
    (List.replicate n (none : Option α)).getD i none = none := by
  induction n generalizing i with
  | zero => simp [List.getD]
  | succ m ih =>
    cases i with
    | zero => simp [List.replicate, List.getD]
    | succ j =>
      rw [List.replicate]
      simpa [List.getD] using ih j

/-- The C10 claim as stated: on an untouched chunk `get_sky_light` is 15
inside the world range `[-64, 320)` and 0 outside it. -/
def c10SkyLightClaim : Prop :=
  ∀ (pos : ChunkPos) (x y z : Int),
    (Chunk.init pos).get_sky_light x y z = if -64 ≤ y ∧ y < 320 then 15 else 0

/-- C10 counterexample: at `y = -65` (outside the world range) the
truncating division maps `y` to section 0, whose missing section reads
as 15, where the claim requires 0. -/
theorem c10_sky_light_counterexample : ¬c10SkyLightClaim := by
  intro h
  have h2 := h ⟨0, 0⟩ 0 (-65) 0
  have h3 : (Chunk.init ⟨0, 0⟩).get_sky_light 0 (-65) 0 = 15 := by decide
  rw [h3] at h2
  norm_num at h2

/-- C10 as amended: on an untouched chunk `get_sky_light` returns 15 for
every `-80 < y < 320` (truncation toward zero maps `y ∈ (-80, -64)` to
section index 0 as well) and 0 for `y ≤ -80` or `y ≥ 320`; the query is
total. -/
theorem c10_sky_light_amended (pos : ChunkPos) (x y z : Int) :
    (Chunk.init pos).get_sky_light x y z = if -80 < y ∧ y < 320 then 15 else 0 := by
  unfold Chunk.init Chunk.get_sky_light get_section_index
  simp only [replicate_getD_none]
  rw [show y - WORLD_MIN_Y = y + 64 by unfold WORLD_MIN_Y; ring]
  rw [tdiv_16_eq]
  unfold SECTIONS_PER_CHUNK WORLD_MIN_Y WORLD_MAX_Y
  norm_num
  by_cases hy : -80 < y ∧ y < 320
  · rw [if_pos hy, if_neg]
    push_neg
    constructor
    · split <;> omega
    · split <;> omega
  · rw [if_neg hy, if_pos]
    push_neg at hy
    by_cases h0 : 0 ≤ y + 64
    · rw [if_pos h0]
      omega
    · rw [if_neg h0]
      omega

/-! ### Big-endian fixed-width codec (`Buffer::write_be` / `Buffer::read_be`)

`write_be<T>` writes `sizeof(T)` bytes `(value >> 8*i)` (cast to a byte)
from the most significant down; `read_be<T>` folds
`result = (result << 8) | read_byte()` over `sizeof(T)` bytes, the
assignment back into `T` truncating to `width` bits. -/

def beBytes (k : Nat) (n : Nat) : List Nat :=
  match k with
  | 0 => []
  | k + 1 => ((n >>> (8 * k)) % 256) :: beBytes k n

/-- `write_be` on a signed value: `>>` is an arithmetic shift and the
byte cast takes the value modulo 256 (two's complement). -/
def beBytesInt (k : Nat) (v : Int) : List Nat :=
  match k with
  | 0 => []
  | k + 1 => ((v.fdiv (2 ^ (8 * k))).emod 256).toNat :: beBytesInt k v

def Buffer.readBeLoop (b : Buffer) (k : Nat) (acc width : Nat) : Except BufErr (Nat × Buffer) :=
  match k with
  | 0 => .ok (acc, b)
  | k + 1 =>
    match b.readByte with
    | .error e => .error e
    | .ok (v, b1) => b1.readBeLoop k ((acc <<< 8 ||| v) % 2 ^ width) width

def Buffer.readBeU64 (b : Buffer) : Except BufErr (Nat × Buffer) := b.readBeLoop 8 0 64

def Buffer.readBeU16 (b : Buffer) : Except BufErr (Nat × Buffer) := b.readBeLoop 2 0 16

def Buffer.readBeI32 (b : Buffer) : Except BufErr (Int × Buffer) :=
  match b.readBeLoop 4 0 32 with
  | .error e => .error e
  | .ok (n, b1) => .ok (toSigned 32 n, b1)

def Buffer.readBeI16 (b : Buffer) : Except BufErr (Int × Buffer) :=
  match b.readBeLoop 2 0 16 with
  | .error e => .error e
  | .ok (n, b1) => .ok (toSigned 16 n, b1)

theorem beBytes_length (k n : Nat) : (beBytes k n).length = k := by
  induction k with
  | zero => rfl
  | succ m ih => simp [beBytes, ih]

theorem beBytesInt_length (k : Nat) (v : Int) : (beBytesInt k v).length = k := by
  induction k with
  | zero => rfl
  | succ m ih => simp [beBytesInt, ih]

theorem beBytes_head_lt (k n : Nat) : (n >>> (8 * k)) % 256 < 256 := Nat.mod_lt _ (by norm_num)

/-- Reading `k` big-endian bytes produced by `beBytes k n` accumulates
`acc * 2^(8k) + n % 2^(8k)` and advances the cursor by `k`. -/
theorem Buffer.readBeLoop_of_bytes :
    ∀ (k : Nat) (n acc width : Nat) (b : Buffer) (rest : List Nat),
    8 * k ≤ width → acc < 2 ^ (width - 8 * k) →
    b.remaining = beBytes k n ++ rest →
    b.readBeLoop k acc width =
      .ok (acc * 2 ^ (8 * k) + n % 2 ^ (8 * k), ⟨b.data, b.readPos + k⟩) := by
  intro k
  induction k with
  | zero =>
    intro n acc width b rest hw hacc hrem
    simp [Buffer.readBeLoop, Nat.mod_one]
  | succ m ih =>
    intro n acc width b rest hw hacc hrem
    rw [beBytes] at hrem
    rw [Buffer.readBeLoop, Buffer.readByte_cons hrem]
    have hrem1 : (Buffer.mk b.data (b.readPos + 1)).remaining = beBytes m n ++ rest :=
      Buffer.remaining_succ hrem
    have hhead : (n >>> (8 * m)) % 256 < 2 ^ 8 := beBytes_head_lt m n
    have hstep : acc <<< 8 ||| (n >>> (8 * m)) % 256 =
        (n >>> (8 * m)) % 256 + acc * 2 ^ 8 := by
      rw [Nat.lor_comm]
      exact lor_shiftLeft_eq_add hhead
    have hb : acc * 2 ^ 8 + (n >>> (8 * m)) % 256 < 2 ^ (width - 8 * m) := by
      have h1 : acc * 2 ^ 8 ≤ (2 ^ (width - 8 * (m + 1)) - 1) * 2 ^ 8 :=
        Nat.mul_le_mul_right _ (by omega)
      have h2 : (2 : Nat) ^ (width - 8 * (m + 1)) * 2 ^ 8 = 2 ^ (width - 8 * m) := by
        rw [← pow_add]
        congr 1
        omega
      have h3 : (0 : Nat) < 2 ^ (width - 8 * (m + 1)) := Nat.two_pow_pos _
      omega
    have hmod : (acc <<< 8 ||| (n >>> (8 * m)) % 256) % 2 ^ width =
        acc * 2 ^ 8 + (n >>> (8 * m)) % 256 := by
      rw [hstep, Nat.add_comm, Nat.mod_eq_of_lt]
      calc acc * 2 ^ 8 + (n >>> (8 * m)) % 256 < 2 ^ (width - 8 * m) := hb
        _ ≤ 2 ^ width := Nat.pow_le_pow_right (by norm_num) (by omega)
    simp only [hmod]
    rw [ih n _ width _ rest (by omega) (by omega) hrem1]
    have hval : (acc * 2 ^ 8 + (n >>> (8 * m)) % 256) * 2 ^ (8 * m) + n % 2 ^ (8 * m) =
        acc * 2 ^ (8 * (m + 1)) + n % 2 ^ (8 * (m + 1)) := by
      have hsplit : n % 2 ^ (8 * (m + 1)) =
          n % 2 ^ (8 * m) + 2 ^ (8 * m) * (n / 2 ^ (8 * m) % 2 ^ 8) := by
        have h1 : (2 : Nat) ^ (8 * (m + 1)) = 2 ^ (8 * m) * 2 ^ 8 := by ring
        rw [h1]
        exact Nat.mod_mul
      rw [hsplit, Nat.shiftRight_eq_div_pow]
      have h2 : (2 : Nat) ^ (8 * (m + 1)) = 2 ^ (8 * m) * 2 ^ 8 := by ring
      rw [h2]
      have h256 : (2 : Nat) ^ 8 = 256 := by norm_num
      rw [h256] at *
      ring
    rw [hval]
    have hpos : b.readPos + 1 + m = b.readPos + (m + 1) := by omega
    rw [hpos]

/-- Specialisation: reading back a full `k`-byte value below `2^(8k)`. -/
theorem Buffer.readBeLoop_roundtrip (k n width : Nat) (b : Buffer) (rest : List Nat)
    (hk : 8 * k = width) (hn : n < 2 ^ (8 * k))
    (hrem : b.remaining = beBytes k n ++ rest) :
    b.readBeLoop k 0 width = .ok (n, ⟨b.data, b.readPos + k⟩) := by
  have h := Buffer.readBeLoop_of_bytes k n 0 width b rest (by omega) (Nat.two_pow_pos _) hrem
  rw [h, Nat.zero_mul, Nat.zero_add, Nat.mod_eq_of_lt hn]

/-- Consumption-only: `readBeLoop` over any `k`-byte prefix succeeds and
advances by `k`. -/
theorem Buffer.readBeLoop_consume :
    ∀ (k : Nat) (xs rest : List Nat) (acc width : Nat) (b : Buffer),
    xs.length = k → b.remaining = xs ++ rest →
    ∃ v, b.readBeLoop k acc width = .ok (v, ⟨b.data, b.readPos + k⟩) := by
  intro k
  induction k with
  | zero =>
    intro xs rest acc width b hlen hrem
    exact ⟨acc, by simp [Buffer.readBeLoop]⟩
  | succ m ih =>
    intro xs rest acc width b hlen hrem
    match xs, hlen with
    | x :: t, hlen =>
      rw [List.cons_append] at hrem
      rw [Buffer.readBeLoop, Buffer.readByte_cons hrem]
      have hrem1 : (Buffer.mk b.data (b.readPos + 1)).remaining = t ++ rest :=
        Buffer.remaining_succ hrem
      obtain ⟨v, hv⟩ := ih t rest ((acc <<< 8 ||| x) % 2 ^ width) width _ (by simpa using hlen) hrem1
      refine ⟨v, ?_⟩
      simp only [hv]
      rw [show b.readPos + 1 + m = b.readPos + (m + 1) by omega]

theorem Buffer.remaining_length (b : Buffer) : b.remaining.length = b.readable := by
  simp [Buffer.remaining, Buffer.readable, Buffer.size, List.length_drop]

/-- A bulk `read` of exactly the next `n`-byte prefix. -/
theorem Buffer.readBulk_consume (b : Buffer) (xs rest : List Nat) (n : Nat)
    (hlen : xs.length = n) (hrem : b.remaining = xs ++ rest) :
    b.readBulk n = (xs, ⟨b.data, b.readPos + n⟩) := by
  have hreadable : n ≤ b.readable := by
    rw [← Buffer.remaining_length, hrem]
    simp [hlen]
  rw [Buffer.readBulk]
  have hmin : min n b.readable = n := Nat.min_eq_left hreadable
  simp only [hmin]
  rw [hrem, ← hlen, List.take_left]

/-! ### Chunk serialization (`WorldPersistence::serialize_chunk` /
`deserialize_chunk`, claim C1)

`serialize_chunk` writes `i32 section_count` (always 24), then per
section: a presence byte, `i16 block_count`, 4096 big-endian `u16` block
ids in index order (`y = (i/256)%16`, `z = (i/16)%16`, `x = i%16`), the
2048-byte block-light array and the 2048-byte sky-light array.
`deserialize_chunk` creates a fresh chunk, then parses the same layout
into a *local* `ChunkSection` — which is never attached to the chunk —
and finally returns the chunk with `loaded = true`, `dirty = false`. -/

def serializeBlocksFrom (s : ChunkSection) (i : Nat) : List Nat :=
  if i < 4096 then
    beBytes 2 ((s.get_block ((i % 16 : Nat) : Int) (((i / 256) % 16 : Nat) : Int)
        (((i / 16) % 16 : Nat) : Int)).id)
      ++ serializeBlocksFrom s (i + 1)
  else []
termination_by 4096 - i

/-- The raw 2048-byte nibble array as written by the bulk `write`. -/
def lightBytes (f : Nat → Nat) : List Nat := (List.range 2048).map f

def serializeSectionBytes : Option ChunkSection → List Nat
  | none => [0]
  | some s =>
    [1] ++ beBytesInt 2 s.blockCount ++ serializeBlocksFrom s 0
        ++ lightBytes s.blockLight ++ lightBytes s.skyLight

def serializeSectionsBytes : List (Option ChunkSection) → List Nat
  | [] => []
  | s :: t => serializeSectionBytes s ++ serializeSectionsBytes t

/-- `WorldPersistence::serialize_chunk` into a fresh buffer. -/
def serialize_chunk (c : Chunk) : List Nat :=
  beBytesInt 4 (c.sections.length : Int) ++ serializeSectionsBytes c.sections

def Buffer.readBlocksFrom (b : Buffer) (s : ChunkSection) (i : Nat) :
    Except BufErr (ChunkSection × Buffer) :=
  if i < 4096 then
    match b.readBeU16 with
    | .error e => .error e
    | .ok (blockId, b1) =>
      b1.readBlocksFrom
        (s.set_block ((i % 16 : Nat) : Int) (((i / 256) % 16 : Nat) : Int)
          (((i / 16) % 16 : Nat) : Int) ⟨blockId⟩) (i + 1)
  else .ok (s, b)
termination_by 4096 - i

/-- `buffer.read(dest, len)` into a pre-existing byte array: the copied
prefix overwrites the front, the rest keeps its old contents. -/
def overwriteArray (old : Nat → Nat) (bytes : List Nat) : Nat → Nat :=
  fun i => bytes.getD i (old i)

/-- Parsing one present section of the chunk payload (the body of the
`has_section` branch of `deserialize_chunk`). -/
def Buffer.readSection (b : Buffer) : Except BufErr (ChunkSection × Buffer) :=
  match b.readBeI16 with
  | .error e => .error e
  | .ok (blockCount, b1) =>
    let s0 : ChunkSection := { ChunkSection.init with blockCount := blockCount }
    match b1.readBlocksFrom s0 0 with
    | .error e => .error e
    | .ok (s1, b2) =>
      let r1 := b2.readBulk 2048
      let s2 : ChunkSection := { s1 with blockLight := overwriteArray s1.blockLight r1.1 }
      let r2 := r1.2.readBulk 2048
      let s3 : ChunkSection := { s2 with skyLight := overwriteArray s2.skyLight r2.1 }
      .ok (s3, r2.2)

/-- The `for (i32 s = 0; s < section_count; ++s)` loop: each parsed
section is a local value that is dropped, never attached to the chunk. -/
def Buffer.readSectionsLoop (b : Buffer) (n : Nat) : Except BufErr Buffer :=
  match n with
  | 0 => .ok b
  | m + 1 =>
    match b.readByte with
    | .error e => .error e
    | .ok (hasSection, b1) =>
      if hasSection = 0 then b1.readSectionsLoop m
      else
        match b1.readSection with
        | .error e => .error e
        | .ok (_section, b2) => b2.readSectionsLoop m

/-- `WorldPersistence::deserialize_chunk`. -/
def deserialize_chunk (pos : ChunkPos) (bytes : List Nat) : Except BufErr Chunk :=
  match (Buffer.mk bytes 0).readBeI32 with
  | .error e => .error e
  | .ok (sectionCount, b1) =>
    match b1.readSectionsLoop sectionCount.toNat with
    | .error e => .error e
    | .ok _ => .ok { Chunk.init pos with loaded := true, dirty := false }

/-! Consumption lemmas: parsing the serialized layout always succeeds
and advances the cursor by exactly the number of bytes written. -/

theorem Buffer.readBlocksFrom_consume :
    ∀ (m i : Nat), m = 4096 - i →
    ∀ (sW sR : ChunkSection) (b : Buffer) (rest : List Nat),
    b.remaining = serializeBlocksFrom sW i ++ rest →
    ∃ s1, b.readBlocksFrom sR i =
      .ok (s1, ⟨b.data, b.readPos + (serializeBlocksFrom sW i).length⟩) := by
  intro m
  induction m with
  | zero =>
    intro i hi sW sR b rest hrem
    have hge : ¬i < 4096 := by omega
    rw [serializeBlocksFrom, if_neg hge] at hrem ⊢
    rw [Buffer.readBlocksFrom, if_neg hge]
    exact ⟨sR, by simp⟩
  | succ m ih =>
    intro i hi sW sR b rest hrem
    by_cases hlt : i < 4096
    · rw [serializeBlocksFrom, if_pos hlt] at hrem ⊢
      rw [Buffer.readBlocksFrom, if_pos hlt]
      rw [List.append_assoc] at hrem
      obtain ⟨v, hv⟩ := Buffer.readBeLoop_consume 2 _ _ 0 16 b (beBytes_length 2 _) hrem
      rw [show Buffer.readBeU16 b = b.readBeLoop 2 0 16 from rfl, hv]
      have hrem2 : (Buffer.mk b.data (b.readPos + 2)).remaining =
          serializeBlocksFrom sW (i + 1) ++ rest := by
        have hd : (Buffer.mk b.data (b.readPos + 2)).remaining = b.remaining.drop 2 := by
          simp [Buffer.remaining, List.drop_drop, Nat.add_comm]
        rw [hd, hrem, List.drop_append_of_le_length (by simp [beBytes_length])]
        rw [show (beBytes 2 ((sW.get_block ((i % 16 : Nat) : Int) (((i / 256) % 16 : Nat) : Int)
          (((i / 16) % 16 : Nat) : Int)).id)).drop 2 = [] from by
            rw [List.drop_of_length_le (by simp [beBytes_length])]]
        rfl
      obtain ⟨s1, hs1⟩ := ih (i + 1) (by omega) sW
        (sR.set_block ((i % 16 : Nat) : Int) (((i / 256) % 16 : Nat) : Int)
          (((i / 16) % 16 : Nat) : Int) ⟨v⟩) _ rest hrem2
      refine ⟨s1, ?_⟩
      simp only [hs1]
      rw [show b.readPos + 2 + (serializeBlocksFrom sW (i + 1)).length =
        b.readPos + (beBytes 2 ((sW.get_block ((i % 16 : Nat) : Int) (((i / 256) % 16 : Nat) : Int)
          (((i / 16) % 16 : Nat) : Int)).id) ++ serializeBlocksFrom sW (i + 1)).length by
            simp [beBytes_length, List.length_append]
            omega]
    · rw [serializeBlocksFrom, if_neg hlt] at hrem ⊢
      rw [Buffer.readBlocksFrom, if_neg hlt]
      exact ⟨sR, by simp⟩

theorem lightBytes_length (f : Nat → Nat) : (lightBytes f).length = 2048 := by
  simp [lightBytes]

theorem Buffer.readSection_consume (sW : ChunkSection) (b : Buffer) (rest : List Nat)
    (hrem : b.remaining = (beBytesInt 2 sW.blockCount ++ serializeBlocksFrom sW 0
        ++ lightBytes sW.blockLight ++ lightBytes sW.skyLight) ++ rest) :
    ∃ s1, b.readSection =
      .ok (s1, ⟨b.data, b.readPos + (beBytesInt 2 sW.blockCount ++ serializeBlocksFrom sW 0
        ++ lightBytes sW.blockLight ++ lightBytes sW.skyLight).length⟩) := by
  simp only [List.append_assoc] at hrem
  obtain ⟨v, hv⟩ := Buffer.readBeLoop_consume 2 _ _ 0 16 b (beBytesInt_length 2 _) hrem
  rw [Buffer.readSection]
  rw [show Buffer.readBeI16 b = (match b.readBeLoop 2 0 16 with
    | .error e => .error e
    | .ok (n, b1) => .ok (toSigned 16 n, b1)) from rfl, hv]
  have hrem1 : (Buffer.mk b.data (b.readPos + 2)).remaining =
      serializeBlocksFrom sW 0 ++ (lightBytes sW.blockLight ++ (lightBytes sW.skyLight ++ rest)) := by
    have hd : (Buffer.mk b.data (b.readPos + 2)).remaining = b.remaining.drop 2 := by
      simp [Buffer.remaining, List.drop_drop, Nat.add_comm]
    rw [hd, hrem, List.drop_append_of_le_length (by simp [beBytesInt_length])]
    rw [List.drop_of_length_le (le_of_eq (beBytesInt_length 2 _))]
    rfl
  obtain ⟨s1, hs1⟩ := Buffer.readBlocksFrom_consume (4096 - 0) 0 rfl sW
    { ChunkSection.init with blockCount := toSigned 16 v } _ _ hrem1
  simp only [hs1]
  have hrem2 : (Buffer.mk b.data (b.readPos + 2 + (serializeBlocksFrom sW 0).length)).remaining =
      lightBytes sW.blockLight ++ (lightBytes sW.skyLight ++ rest) := by
    have hd : (Buffer.mk b.data (b.readPos + 2 + (serializeBlocksFrom sW 0).length)).remaining =
        (Buffer.mk b.data (b.readPos + 2)).remaining.drop (serializeBlocksFrom sW 0).length := by
      simp [Buffer.remaining, List.drop_drop, Nat.add_comm, Nat.add_assoc]
    rw [hd, hrem1, List.drop_left]
  have hbulk1 := Buffer.readBulk_consume _ _ _ 2048 (lightBytes_length sW.blockLight) hrem2
  simp only [hbulk1]
  have hrem3 : (Buffer.mk b.data (b.readPos + 2 + (serializeBlocksFrom sW 0).length + 2048)).remaining =
      lightBytes sW.skyLight ++ rest := by
    have hd : (Buffer.mk b.data (b.readPos + 2 + (serializeBlocksFrom sW 0).length + 2048)).remaining =
        (Buffer.mk b.data (b.readPos + 2 + (serializeBlocksFrom sW 0).length)).remaining.drop 2048 := by
      simp [Buffer.remaining, List.drop_drop, Nat.add_comm, Nat.add_assoc]
    rw [hd, hrem2, List.drop_left' (lightBytes_length _)]
  have hbulk2 := Buffer.readBulk_consume _ _ _ 2048 (lightBytes_length sW.skyLight) hrem3
  simp only [hbulk2]
  rw [show b.readPos + (beBytesInt 2 sW.blockCount ++ serializeBlocksFrom sW 0
      ++ lightBytes sW.blockLight ++ lightBytes sW.skyLight).length =
    b.readPos + 2 + (serializeBlocksFrom sW 0).length + 2048 + 2048 by
      simp [List.length_append, beBytesInt_length, lightBytes_length]
      omega]
  exact ⟨_, rfl⟩

theorem Buffer.readSectionsLoop_of_bytes :
    ∀ (secs : List (Option ChunkSection)) (b : Buffer) (rest : List Nat),
    b.remaining = serializeSectionsBytes secs ++ rest →
    b.readSectionsLoop secs.length =
      .ok ⟨b.data, b.readPos + (serializeSectionsBytes secs).length⟩ := by
  intro secs
  induction secs with
  | nil =>
    intro b rest hrem
    simp [Buffer.readSectionsLoop, serializeSectionsBytes]
  | cons s t ih =>
    intro b rest hrem
    rw [List.length_cons, Buffer.readSectionsLoop]
    cases s with
    | none =>
      rw [serializeSectionsBytes, serializeSectionBytes] at hrem
      simp only [List.cons_append, List.nil_append] at hrem
      rw [Buffer.readByte_cons hrem]
      simp only [if_pos rfl]
      have hrem1 : (Buffer.mk b.data (b.readPos + 1)).remaining =
          serializeSectionsBytes t ++ rest := by
        have := Buffer.remaining_succ hrem
        simpa using this
      rw [ih _ rest hrem1]
      simp only [serializeSectionsBytes, serializeSectionBytes]
      rw [show b.readPos + 1 + (serializeSectionsBytes t).length =
        b.readPos + ([0] ++ serializeSectionsBytes t).length by simp; omega]
      simp
    | some sW =>
      rw [serializeSectionsBytes, serializeSectionBytes] at hrem
      have hrem' : b.remaining = 1 :: ((beBytesInt 2 sW.blockCount ++ serializeBlocksFrom sW 0
          ++ lightBytes sW.blockLight ++ lightBytes sW.skyLight) ++ (serializeSectionsBytes t ++ rest)) := by
        rw [hrem]
        simp [List.append_assoc]
      rw [Buffer.readByte_cons hrem']
      simp only [if_neg (by norm_num : ¬(1 : Nat) = 0)]
      have hrem1 : (Buffer.mk b.data (b.readPos + 1)).remaining =
          (beBytesInt 2 sW.blockCount ++ serializeBlocksFrom sW 0
            ++ lightBytes sW.blockLight ++ lightBytes sW.skyLight) ++ (serializeSectionsBytes t ++ rest) :=
        Buffer.remaining_succ hrem'
      obtain ⟨s1, hs1⟩ := Buffer.readSection_consume sW _ _ hrem1
      simp only [hs1]
      have hrem2 : (Buffer.mk b.data (b.readPos + 1 + (beBytesInt 2 sW.blockCount ++ serializeBlocksFrom sW 0
          ++ lightBytes sW.blockLight ++ lightBytes sW.skyLight).length)).remaining =
          serializeSectionsBytes t ++ rest := by
        have hd : (Buffer.mk b.data (b.readPos + 1 + (beBytesInt 2 sW.blockCount ++ serializeBlocksFrom sW 0
            ++ lightBytes sW.blockLight ++ lightBytes sW.skyLight).length)).remaining =
            (Buffer.mk b.data (b.readPos + 1)).remaining.drop
              (beBytesInt 2 sW.blockCount ++ serializeBlocksFrom sW 0
                ++ lightBytes sW.blockLight ++ lightBytes sW.skyLight).length := by
          simp [Buffer.remaining, List.drop_drop, Nat.add_comm, Nat.add_assoc]
        rw [hd, hrem1, List.drop_left]
      rw [ih _ rest hrem2]
      rw [show b.readPos + 1 + (beBytesInt 2 sW.blockCount ++ serializeBlocksFrom sW 0
          ++ lightBytes sW.blockLight ++ lightBytes sW.skyLight).length + (serializeSectionsBytes t).length =
        b.readPos + (1 :: (beBytesInt 2 sW.blockCount ++ serializeBlocksFrom sW 0
          ++ lightBytes sW.blockLight ++ lightBytes sW.skyLight) ++ serializeSectionsBytes t).length by
          simp [List.length_append]
          omega]
      rfl

/-- Round trip through `serialize_chunk`/`deserialize_chunk` for any
chunk with the full 24 section slots: parsing succeeds, but the result
is always the empty loaded chunk — the parsed sections are dropped. -/
theorem deserialize_serialize (c : Chunk) (pos : ChunkPos) (hlen : c.sections.length = 24) :
    deserialize_chunk pos (serialize_chunk c) =
      .ok { Chunk.init pos with loaded := true, dirty := false } := by
  rw [deserialize_chunk, serialize_chunk]
  have hrem : (Buffer.mk (beBytesInt 4 (c.sections.length : Int) ++ serializeSectionsBytes c.sections) 0).remaining =
      beBytes 4 24 ++ serializeSectionsBytes c.sections := by
    rw [hlen]
    simp [Buffer.remaining]
    rfl
  have h1 := Buffer.readBeLoop_roundtrip 4 24 32 _ (serializeSectionsBytes c.sections)
    (by norm_num) (by norm_num) hrem
  rw [show Buffer.readBeI32 (Buffer.mk (beBytesInt 4 (c.sections.length : Int) ++ serializeSectionsBytes c.sections) 0) =
    (match (Buffer.mk (beBytesInt 4 (c.sections.length : Int) ++ serializeSectionsBytes c.sections) 0).readBeLoop 4 0 32 with
    | .error e => .error e
    | .ok (n, b1) => .ok (toSigned 32 n, b1)) from rfl, h1]
  simp only []
  rw [show toSigned 32 24 = 24 from by decide]
  rw [show ((24 : Int).toNat) = 24 from rfl]
  have hrem1 : (Buffer.mk (beBytesInt 4 (c.sections.length : Int) ++ serializeSectionsBytes c.sections) (0 + 4)).remaining =
      serializeSectionsBytes c.sections ++ [] := by
    have hd : (Buffer.mk (beBytesInt 4 (c.sections.length : Int) ++ serializeSectionsBytes c.sections) (0 + 4)).remaining =
        (Buffer.mk (beBytesInt 4 (c.sections.length : Int) ++ serializeSectionsBytes c.sections) 0).remaining.drop 4 := by
      simp [Buffer.remaining, List.drop_drop]
    rw [hd, hrem, List.drop_append_of_le_length (by simp [beBytes_length])]
    rw [List.drop_of_length_le (le_of_eq (beBytes_length 4 24)), List.append_nil]
    rfl
  have h2 := Buffer.readSectionsLoop_of_bytes c.sections _ [] hrem1
  rw [← hlen, h2]

/-- The chunk used as C1's failing input: a fresh chunk with a single
stone block written at local `(0, -64, 0)` (so it is dirty and owns one
real section). -/
def demoChunk : Chunk := (Chunk.init ⟨0, 0⟩).set_block 0 (-64) 0 ⟨STONE⟩

/-- C1.  Saving `demoChunk` and loading it back yields the empty loaded
chunk: `deserialize_chunk` drops every parsed section (it never attaches
them), so the stone block at `(0, -64, 0)` reads back as air.  The
save-then-load round trip claimed by the spec fails on the code. -/
theorem c1_roundtrip_drops_sections :
    deserialize_chunk ⟨0, 0⟩ (serialize_chunk demoChunk) =
      .ok { Chunk.init ⟨0, 0⟩ with loaded := true, dirty := false } ∧
    demoChunk.dirty = true ∧
    demoChunk.get_block 0 (-64) 0 = ⟨STONE⟩ ∧
    ({ Chunk.init ⟨0, 0⟩ with loaded := true, dirty := false } : Chunk).get_block 0 (-64) 0 = ⟨AIR⟩ := by
  refine ⟨deserialize_serialize demoChunk ⟨0, 0⟩ ?_, ?_, ?_, ?_⟩
  · decide
  · decide
  · decide
  · decide

/-! ### Chunk store `load_chunk` (claim C6)

`ChunkManager::load_chunk` in its final form
(`minecraft_server_complete.cpp:185-212`): return the loaded chunk if
present; return `nullptr` if pending; otherwise mark pending, then ask
`WorldPersistence::load_chunk` — *synchronously* — and either insert and
return the saved chunk, or submit the asynchronous generation job
(`generate_chunk_async`, which runs `generate_flat_world` for every
configured generator).  `disk` abstracts the region files: `disk pos`
is the stored sector bytes when the coordinate's location-table entry is
nonzero, `none` otherwise; a `deserialize_chunk` throw is caught and
becomes `nullptr`. -/

/-- A task handed to `g_thread_pool.submit` by the chunk store; the
claim's vocabulary also names a persistence-loading job, which the code
never submits. -/
inductive ChunkJob
  | generateFlat (pos : ChunkPos)
  | loadFromDisk (pos : ChunkPos)
deriving DecidableEq

structure ChunkManagerState where
  loaded_chunks : List (ChunkPos × Chunk)
  pending_chunks : List ChunkPos

def lookupChunk (l : List (ChunkPos × Chunk)) (pos : ChunkPos) : Option Chunk :=
  (l.find? (fun e => decide (e.1 = pos))).map (fun e => e.2)

/-- `WorldPersistence::load_chunk`: not stored (or not decodable) ↦
`nullptr`, else the deserialized chunk. -/
def WorldPersistence.load_chunk (disk : ChunkPos → Option (List Nat)) (pos : ChunkPos) :
    Option Chunk :=
  match disk pos with
  | none => none
  | some bytes =>
    match deserialize_chunk pos bytes with
    | .ok c => some c
    | .error _ => none

structure LoadChunkOutcome where
  result : Option Chunk
  state : ChunkManagerState
  jobs : List ChunkJob

def ChunkManager.load_chunk (st : ChunkManagerState) (disk : ChunkPos → Option (List Nat))
    (pos : ChunkPos) : LoadChunkOutcome :=
  match lookupChunk st.loaded_chunks pos with
  | some c => ⟨some c, st, []⟩
  | none =>
    if pos ∈ st.pending_chunks then ⟨none, st, []⟩
    else
      let st1 : ChunkManagerState := ⟨st.loaded_chunks, pos :: st.pending_chunks⟩
      match WorldPersistence.load_chunk disk pos with
      | some saved =>
        ⟨some saved, ⟨(pos, saved) :: st1.loaded_chunks, st1.pending_chunks.erase pos⟩, []⟩
      | none => ⟨none, st1, [.generateFlat pos]⟩

/-- The C6 claim as stated: for a coordinate neither loaded nor pending,
`load_chunk` submits an asynchronous job that loads from region
persistence whenever the coordinate is stored on disk, and only when it
is not stored generates with the flat generator. -/
def c6LoadChunkClaim : Prop :=
  ∀ (st : ChunkManagerState) (disk : ChunkPos → Option (List Nat)) (pos : ChunkPos),
    lookupChunk st.loaded_chunks pos = none → pos ∉ st.pending_chunks →
    ((WorldPersistence.load_chunk disk pos).isSome →
      (ChunkManager.load_chunk st disk pos).jobs = [ChunkJob.loadFromDisk pos]) ∧
    ((WorldPersistence.load_chunk disk pos).isNone →
      (ChunkManager.load_chunk st disk pos).jobs = [ChunkJob.generateFlat pos])

/-- A disk on which `(0, 0)` is stored (four zero bytes decode as a
zero-section chunk payload). -/
def disk0 : ChunkPos → Option (List Nat) :=
  fun p => if p = ⟨0, 0⟩ then some (beBytesInt 4 0) else none

/-- C6 counterexample: with `(0, 0)` stored on disk, `load_chunk` loads
it synchronously inside the call and submits no job at all. -/
theorem c6_load_chunk_counterexample : ¬c6LoadChunkClaim := by
  intro hclaim
  have hstored : (WorldPersistence.load_chunk disk0 ⟨0, 0⟩).isSome := by decide
  have h := (hclaim ⟨[], []⟩ disk0 ⟨0, 0⟩ rfl (by simp)).1 hstored
  have heval : (ChunkManager.load_chunk ⟨[], []⟩ disk0 ⟨0, 0⟩).jobs = [] := by decide
  rw [heval] at h
  exact absurd h (by simp)

/-- C6 as amended: for a coordinate neither loaded nor pending,
`load_chunk` loads the chunk from region persistence *synchronously* and
returns it whenever the coordinate is stored on disk (inserting it and
submitting no job), and only when it is not stored (or fails to decode)
submits an asynchronous job that generates the chunk with the flat
generator, leaving the coordinate pending. -/
theorem c6_load_chunk_amended (st : ChunkManagerState) (disk : ChunkPos → Option (List Nat))
    (pos : ChunkPos)
    (h1 : lookupChunk st.loaded_chunks pos = none) (h2 : pos ∉ st.pending_chunks) :
    (∀ saved, WorldPersistence.load_chunk disk pos = some saved →
      ChunkManager.load_chunk st disk pos =
        ⟨some saved, ⟨(pos, saved) :: st.loaded_chunks, (pos :: st.pending_chunks).erase pos⟩, []⟩) ∧
    (WorldPersistence.load_chunk disk pos = none →
      ChunkManager.load_chunk st disk pos =
        ⟨none, ⟨st.loaded_chunks, pos :: st.pending_chunks⟩, [ChunkJob.generateFlat pos]⟩) := by
  constructor
  · intro saved hsaved
    rw [ChunkManager.load_chunk, h1, if_neg h2, hsaved]
  · intro hnone
    rw [ChunkManager.load_chunk, h1, if_neg h2, hnone]

/-- C6 amended witness: nothing stored on disk, empty store — the
outcome is the pending mark plus one flat-generation job. -/
theorem c6_load_chunk_amended_witness :
    ChunkManager.load_chunk ⟨[], []⟩ (fun _ => none) ⟨0, 0⟩ =
      ⟨none, ⟨[], [⟨0, 0⟩]⟩, [ChunkJob.generateFlat ⟨0, 0⟩]⟩ :=
  (c6_load_chunk_amended ⟨[], []⟩ (fun _ => none) ⟨0, 0⟩ rfl (by simp)).2 rfl

/-! ### Player registry (claim C5)

`PlayerManager::create_player` in its final form
(`complete_integration.cpp:194-224` = `minecraft_server_complete.cpp:126-156`).
The three `unordered_map`s become association lists with
replace-on-insert; `next_entity_id_.fetch_add(1)` is the
`get_next_entity_id` counter; the `Player` constructor marks the session
online.  The spawn `Location` fields (doubles) are modelled out. -/

structure GameProfile where
  uuid : UUID
  username : List Nat

structure Player where
  uuid : UUID
  username : List Nat
  entityId : Nat
  online : Bool
deriving DecidableEq

def alGet {κ α : Type} [DecidableEq κ] (l : List (κ × α)) (k : κ) : Option α :=
  (l.find? (fun e => decide (e.1 = k))).map (fun e => e.2)

def alPut {κ α : Type} [DecidableEq κ] (l : List (κ × α)) (k : κ) (v : α) : List (κ × α) :=
  (k, v) :: l.filter (fun e => decide (e.1 ≠ k))

structure PlayerManager where
  players_by_uuid : List (UUID × Player)
  players_by_name : List (List Nat × Player)
  players_by_entity_id : List (Nat × Player)
  next_entity_id : Nat

def PlayerManager.get_player (pm : PlayerManager) (uuid : UUID) : Option Player :=
  alGet pm.players_by_uuid uuid

/-- `get_online_count`: sessions in the uuid map whose `is_online()`. -/
def PlayerManager.get_online_count (pm : PlayerManager) : Nat :=
  (pm.players_by_uuid.filter (fun e => e.2.online)).length

inductive CreateResult
  | serverFull
  | duplicate
  | created (p : Player) (pm : PlayerManager)

def PlayerManager.create_player (pm : PlayerManager) (maxPlayers : Nat)
    (profile : GameProfile) : CreateResult :=
  if maxPlayers ≤ pm.get_online_count then .serverFull
  else if (pm.get_player profile.uuid).isSome then .duplicate
  else
    let entityId := pm.next_entity_id
    let player : Player := ⟨profile.uuid, profile.username, entityId, true⟩
    .created player
      { players_by_uuid := alPut pm.players_by_uuid profile.uuid player
        players_by_name := alPut pm.players_by_name profile.username player
        players_by_entity_id := alPut pm.players_by_entity_id entityId player
        next_entity_id := entityId + 1 }

theorem alGet_alPut_self {κ α : Type} [DecidableEq κ] (l : List (κ × α)) (k : κ) (v : α) :
    alGet (alPut l k v) k = some v := by
  simp [alGet, alPut, List.find?]

/-- C5.  `create_player` fails with ServerFull when the online count is
at least `max_players`, fails with Duplicate when the UUID is already
present, and only otherwise allocates the next entity id (fresh, given
that all ids in the registry came from the counter), stores the session
in all three maps, and returns it. -/
theorem c5_create_player (pm : PlayerManager) (maxPlayers : Nat) (profile : GameProfile) :
    (maxPlayers ≤ pm.get_online_count →
      pm.create_player maxPlayers profile = .serverFull) ∧
    (pm.get_online_count < maxPlayers → (pm.get_player profile.uuid).isSome →
      pm.create_player maxPlayers profile = .duplicate) ∧
    (pm.get_online_count < maxPlayers → (pm.get_player profile.uuid).isSome = false →
      ∃ p pm1, pm.create_player maxPlayers profile = .created p pm1 ∧
        p.uuid = profile.uuid ∧ p.username = profile.username ∧ p.online = true ∧
        p.entityId = pm.next_entity_id ∧
        pm1.next_entity_id = pm.next_entity_id + 1 ∧
        alGet pm1.players_by_uuid profile.uuid = some p ∧
        alGet pm1.players_by_name profile.username = some p ∧
        alGet pm1.players_by_entity_id p.entityId = some p ∧
        ((∀ e ∈ pm.players_by_entity_id, e.1 < pm.next_entity_id) →
          alGet pm.players_by_entity_id p.entityId = none)) := by
  refine ⟨?_, ?_, ?_⟩
  · intro hfull
    rw [PlayerManager.create_player, if_pos hfull]
  · intro hroom hdup
    rw [PlayerManager.create_player, if_neg (by omega), if_pos hdup]
  · intro hroom hnew
    rw [PlayerManager.create_player, if_neg (by omega), if_neg (by simp [hnew])]
    refine ⟨_, _, rfl, rfl, rfl, rfl, rfl, rfl, alGet_alPut_self .., alGet_alPut_self ..,
      alGet_alPut_self .., ?_⟩
    intro hinv
    rw [alGet]
    rw [List.find?_eq_none.2]
    · rfl
    · intro e he
      have := hinv e he
      simp only [decide_eq_true_eq]
      omega

/-- C5 witness: an empty registry with `max_players = 0` rejects with
ServerFull; with room and a fresh UUID the session is created and
registered in all three maps. -/
theorem c5_create_player_witness :
    PlayerManager.create_player ⟨[], [], [], 1⟩ 0 ⟨[1], [65]⟩ = .serverFull ∧
    (∃ p pm1, PlayerManager.create_player ⟨[], [], [], 1⟩ 100 ⟨[1], [65]⟩ = .created p pm1 ∧
        p.uuid = [1] ∧ p.username = [65] ∧ p.online = true ∧
        p.entityId = 1 ∧ pm1.next_entity_id = 1 + 1 ∧
        alGet pm1.players_by_uuid [1] = some p ∧
        alGet pm1.players_by_name [65] = some p ∧
        alGet pm1.players_by_entity_id p.entityId = some p ∧
        ((∀ e ∈ ([] : List (Nat × Player)), e.1 < 1) →
          alGet ([] : List (Nat × Player)) p.entityId = none)) :=
  ⟨(c5_create_player ⟨[], [], [], 1⟩ 0 ⟨[1], [65]⟩).1 (by decide),
   (c5_create_player ⟨[], [], [], 1⟩ 100 ⟨[1], [65]⟩).2.2 (by decide) (by decide)⟩

/-! ### Per-player chunk view (claim C7)

`Player::update_loaded_chunks` (entity.hpp:704-732; the
fixes_and_integration.hpp:146-196 variant additionally sends packets but
computes the same resulting set): build the `needed_chunks` disc, erase
every loaded chunk not in it, then insert every needed chunk not
currently loaded. -/

def neededChunks (centre : ChunkPos) (r : Int) : Finset (Int × Int) :=
  ((Finset.Icc (-r) r) ×ˢ (Finset.Icc (-r) r)).filter
    (fun d => d.1 * d.1 + d.2 * d.2 ≤ r * r) |>.image
    (fun d => (centre.x + d.1, centre.z + d.2))

def update_loaded_chunks (loaded : Finset (Int × Int)) (centre : ChunkPos) (r : Int) :
    Finset (Int × Int) :=
  let needed := neededChunks centre r
  let kept := loaded.filter (fun c => c ∈ needed)
  kept ∪ needed.filter (fun c => c ∉ kept)

/-- C7.  After `update_loaded_chunks`, the loaded set is exactly the
Euclidean disc `{(cx+dx, cz+dz) : dx² + dz² ≤ r²}` around the current
chunk (for the non-negative view distances the session can hold). -/
theorem c7_update_loaded_chunks (loaded : Finset (Int × Int)) (centre : ChunkPos) (r : Int)
    (hr : 0 ≤ r) (c : Int × Int) :
    c ∈ update_loaded_chunks loaded centre r ↔
      (c.1 - centre.x) * (c.1 - centre.x) + (c.2 - centre.z) * (c.2 - centre.z) ≤ r * r := by
  have hset : ∀ a, a ∈ update_loaded_chunks loaded centre r ↔ a ∈ neededChunks centre r := by
    intro a
    unfold update_loaded_chunks
    simp only [Finset.mem_union, Finset.mem_filter]
    tauto
  rw [hset]
  unfold neededChunks
  simp only [Finset.mem_image, Finset.mem_filter, Finset.mem_product, Finset.mem_Icc]
  constructor
  · rintro ⟨⟨dx, dz⟩, ⟨⟨⟨h1, h2⟩, h3, h4⟩, h5⟩, rfl⟩
    simp only
    rw [show centre.x + dx - centre.x = dx by ring, show centre.z + dz - centre.z = dz by ring]
    exact h5
  · intro h
    refine ⟨(c.1 - centre.x, c.2 - centre.z), ⟨⟨⟨?_, ?_⟩, ?_, ?_⟩, h⟩, ?_⟩
    · show -r ≤ c.1 - centre.x
      nlinarith [sq_nonneg (c.1 - centre.x + r), sq_nonneg (c.2 - centre.z)]
    · show c.1 - centre.x ≤ r
      nlinarith [sq_nonneg (c.1 - centre.x - r), sq_nonneg (c.2 - centre.z)]
    · show -r ≤ c.2 - centre.z
      nlinarith [sq_nonneg (c.2 - centre.z + r), sq_nonneg (c.1 - centre.x)]
    · show c.2 - centre.z ≤ r
      nlinarith [sq_nonneg (c.2 - centre.z - r), sq_nonneg (c.1 - centre.x)]
    · simp

/-- C7 witness: view distance 2 around `(0, 0)` from an empty set — the
chunk `(1, 1)` is inside the disc. -/
theorem c7_update_loaded_chunks_witness :
    (1, 1) ∈ update_loaded_chunks ∅ ⟨0, 0⟩ 2 ↔
      ((1 : Int) - 0) * (1 - 0) + ((1 : Int) - 0) * (1 - 0) ≤ 2 * 2 :=
  c7_update_loaded_chunks ∅ ⟨0, 0⟩ 2 (by norm_num) (1, 1)

/-! ### Packed block positions (claim C9)

`BlockChangePacket::write` / `read` (fixes_and_integration.hpp:515-534):
the packed form `((x & 0x3FFFFFF) << 38) | ((z & 0x3FFFFFF) << 12) |
(y & 0xFFF)` as a big-endian `u64`, followed by a VarInt block state;
decoding extracts the fields and sign-extends. -/

structure Position where
  x : Int
  y : Int
  z : Int
deriving Repr, DecidableEq

structure BlockChangePacket where
  position : Position
  block_state : Nat
deriving Repr, DecidableEq

def BlockChangePacket.write (pkt : BlockChangePacket) (b : Buffer) : Buffer :=
  let encoded : Nat :=
    ((pkt.position.x.emod (2 ^ 26)).toNat <<< 38) |||
    ((pkt.position.z.emod (2 ^ 26)).toNat <<< 12) |||
    (pkt.position.y.emod (2 ^ 12)).toNat
  (b.writeBytes (beBytes 8 encoded)).writeVarint (toSigned 32 (pkt.block_state % 2 ^ 32))

def BlockChangePacket.read (b : Buffer) : Except BufErr (BlockChangePacket × Buffer) :=
  match b.readBeU64 with
  | .error e => .error e
  | .ok (encoded, b1) =>
    let x0 : Int := ((encoded >>> 38 : Nat) : Int)
    let z0 : Int := (((encoded >>> 12) &&& 0x3FFFFFF : Nat) : Int)
    let y0 : Int := ((encoded &&& 0xFFF : Nat) : Int)
    let x1 := if 0x2000000 ≤ x0 then x0 - 0x4000000 else x0
    let z1 := if 0x2000000 ≤ z0 then z0 - 0x4000000 else z0
    let y1 := if 0x800 ≤ y0 then y0 - 0x1000 else y0
    match b1.readVarint with
    | .error e => .error e
    | .ok (bs, b2) => .ok (⟨⟨x1, y1, z1⟩, (bs.emod (2 ^ 32)).toNat⟩, b2)

/-- C9.  For every block position with `|x|, |z| < 2²⁵` and `|y| < 2¹¹`,
decoding the encoder's output returns exactly the original position,
including negative coordinates via sign extension. -/
theorem c9_position_roundtrip (pkt : BlockChangePacket)
    (hx1 : -2 ^ 25 < pkt.position.x) (hx2 : pkt.position.x < 2 ^ 25)
    (hz1 : -2 ^ 25 < pkt.position.z) (hz2 : pkt.position.z < 2 ^ 25)
    (hy1 : -2 ^ 11 < pkt.position.y) (hy2 : pkt.position.y < 2 ^ 11) :
    (BlockChangePacket.read (pkt.write Buffer.empty)).map (fun r => r.1.position) =
      .ok pkt.position := by
  obtain ⟨⟨x, y, z⟩, bs⟩ := pkt
  simp only at hx1 hx2 hz1 hz2 hy1 hy2
  obtain ⟨xm, hxm⟩ : ∃ u : Nat, (x.emod (2 ^ 26)).toNat = u := ⟨_, rfl⟩
  obtain ⟨zm, hzm⟩ : ∃ u : Nat, (z.emod (2 ^ 26)).toNat = u := ⟨_, rfl⟩
  obtain ⟨ym, hym⟩ : ∃ u : Nat, (y.emod (2 ^ 12)).toNat = u := ⟨_, rfl⟩
  have hxc : (xm : Int) = x % 67108864 := by
    rw [← hxm, show ((2 : Int) ^ 26) = 67108864 by norm_num]
    exact Int.toNat_of_nonneg (Int.emod_nonneg x (by norm_num))
  have hzc : (zm : Int) = z % 67108864 := by
    rw [← hzm, show ((2 : Int) ^ 26) = 67108864 by norm_num]
    exact Int.toNat_of_nonneg (Int.emod_nonneg z (by norm_num))
  have hyc : (ym : Int) = y % 4096 := by
    rw [← hym, show ((2 : Int) ^ 12) = 4096 by norm_num]
    exact Int.toNat_of_nonneg (Int.emod_nonneg y (by norm_num))
  have hxlt : xm < 2 ^ 26 := by
    have h1 : x % 67108864 < 67108864 := Int.emod_lt_of_pos x (by norm_num)
    have h2 : (2 : Nat) ^ 26 = 67108864 := by norm_num
    omega
  have hzlt : zm < 2 ^ 26 := by
    have h1 : z % 67108864 < 67108864 := Int.emod_lt_of_pos z (by norm_num)
    have h2 : (2 : Nat) ^ 26 = 67108864 := by norm_num
    omega
  have hylt : ym < 2 ^ 12 := by
    have h1 : y % 4096 < 4096 := Int.emod_lt_of_pos y (by norm_num)
    have h2 : (2 : Nat) ^ 12 = 4096 := by norm_num
    omega
  have hencoded : xm <<< 38 ||| zm <<< 12 ||| ym = xm * 2 ^ 38 + zm * 2 ^ 12 + ym := by
    have hA : xm <<< 38 ||| zm <<< 12 = zm * 2 ^ 12 + xm * 2 ^ 38 := by
      rw [Nat.lor_comm, Nat.shiftLeft_eq zm 12]
      exact lor_shiftLeft_eq_add (by
        calc zm * 2 ^ 12 < 2 ^ 26 * 2 ^ 12 :=
          (Nat.mul_lt_mul_right (Nat.two_pow_pos 12)).2 hzlt
        _ = 2 ^ 38 := by norm_num)
    rw [hA]
    have hB : (zm * 2 ^ 12 + xm * 2 ^ 38) = (zm + xm * 2 ^ 26) * 2 ^ 12 := by ring
    rw [hB, ← Nat.shiftLeft_eq, Nat.lor_comm]
    rw [lor_shiftLeft_eq_add (by omega : ym < 2 ^ 12)]
    ring
  obtain ⟨E, hE⟩ : ∃ u : Nat, xm <<< 38 ||| zm <<< 12 ||| ym = u := ⟨_, rfl⟩
  have hElt : E < 2 ^ 64 := by
    rw [← hE, hencoded]
    have p1 : xm * 2 ^ 38 ≤ (2 ^ 26 - 1) * 2 ^ 38 := Nat.mul_le_mul_right _ (by omega)
    have p2 : zm * 2 ^ 12 ≤ (2 ^ 26 - 1) * 2 ^ 12 := Nat.mul_le_mul_right _ (by omega)
    norm_num at p1 p2 ⊢
    omega
  have hwrite : (BlockChangePacket.write ⟨⟨x, y, z⟩, bs⟩ Buffer.empty).data =
      beBytes 8 E ++ varintBytes ((toSigned 32 (bs % 2 ^ 32)).emod (2 ^ 32)).toNat ∧
      (BlockChangePacket.write ⟨⟨x, y, z⟩, bs⟩ Buffer.empty).readPos = 0 := by
    unfold BlockChangePacket.write
    simp only [hxm, hzm, hym, hE]
    have := Buffer.writeVarintLoop_spec ((toSigned 32 (bs % 2 ^ 32)).emod (2 ^ 32)).toNat
      (Buffer.empty.writeBytes (beBytes 8 E))
    simp only [Buffer.writeVarint]
    simp [Buffer.writeBytes, Buffer.empty] at this ⊢
    exact this
  unfold BlockChangePacket.read
  have hrem : (BlockChangePacket.write ⟨⟨x, y, z⟩, bs⟩ Buffer.empty).remaining =
      beBytes 8 E ++ varintBytes ((toSigned 32 (bs % 2 ^ 32)).emod (2 ^ 32)).toNat := by
    simp [Buffer.remaining, hwrite.1, hwrite.2]
  have hread64 := Buffer.readBeLoop_roundtrip 8 E 64 _
    (varintBytes ((toSigned 32 (bs % 2 ^ 32)).emod (2 ^ 32)).toNat)
    (by norm_num) (by simpa using hElt) hrem
  rw [show Buffer.readBeU64 (BlockChangePacket.write ⟨⟨x, y, z⟩, bs⟩ Buffer.empty) =
    (BlockChangePacket.write ⟨⟨x, y, z⟩, bs⟩ Buffer.empty).readBeLoop 8 0 64 from rfl, hread64]
  simp only []
  obtain ⟨bsu, hbsu⟩ : ∃ u : Nat, ((toSigned 32 (bs % 2 ^ 32)).emod (2 ^ 32)).toNat = u := ⟨_, rfl⟩
  have hbsu32 : bsu < 2 ^ 32 := by
    have h1 : (toSigned 32 (bs % 2 ^ 32)).emod (2 ^ 32) < 2 ^ 32 :=
      Int.emod_lt_of_pos _ (by norm_num)
    have h2 : 0 ≤ (toSigned 32 (bs % 2 ^ 32)).emod (2 ^ 32) := Int.emod_nonneg _ (by norm_num)
    omega
  have hremV : (Buffer.mk (BlockChangePacket.write ⟨⟨x, y, z⟩, bs⟩ Buffer.empty).data
      (0 + 8)).remaining = varintBytes bsu ++ [] := by
    have hd : (Buffer.mk (BlockChangePacket.write ⟨⟨x, y, z⟩, bs⟩ Buffer.empty).data
        (0 + 8)).remaining =
        (BlockChangePacket.write ⟨⟨x, y, z⟩, bs⟩ Buffer.empty).remaining.drop 8 := by
      simp [Buffer.remaining, List.drop_drop, hwrite.2]
    rw [hd, hrem, List.drop_append_of_le_length (by simp [beBytes_length]),
        List.drop_of_length_le (le_of_eq (beBytes_length 8 E)), hbsu]
    simp
  have hreadV := Buffer.readVarintLoop_of_bytes bsu 0 0 _ [] (by simpa using hbsu32)
    (by norm_num) (by norm_num) (by norm_num) hremV
  rw [show ∀ bb : Buffer, Buffer.readVarint bb = bb.readVarintLoop 0 0 from fun _ => rfl,
      hwrite.2, hreadV]
  simp only [Except.map, Except.ok.injEq]
  -- field extraction
  have hx0 : E >>> 38 = xm := by
    rw [← hE, hencoded, Nat.shiftRight_eq_div_pow]
    have h1 : xm * 2 ^ 38 + zm * 2 ^ 12 + ym = 2 ^ 38 * xm + (zm * 2 ^ 12 + ym) := by ring
    rw [h1, Nat.mul_add_div (Nat.two_pow_pos 38), Nat.div_eq_of_lt, Nat.add_zero]
    have h2 : zm * 2 ^ 12 ≤ (2 ^ 26 - 1) * 2 ^ 12 := Nat.mul_le_mul_right _ (by omega)
    norm_num at h2 hylt ⊢
    omega
  have hz0 : (E >>> 12) &&& 0x3FFFFFF = zm := by
    rw [← hE, hencoded, Nat.shiftRight_eq_div_pow]
    have h1 : xm * 2 ^ 38 + zm * 2 ^ 12 + ym = 2 ^ 12 * (xm * 2 ^ 26 + zm) + ym := by ring
    rw [h1, Nat.mul_add_div (Nat.two_pow_pos 12), Nat.div_eq_of_lt (by omega), Nat.add_zero]
    have h2 : (0x3FFFFFF : Nat) = 2 ^ 26 - 1 := by norm_num
    rw [h2, Nat.and_pow_two_sub_one_eq_mod, Nat.add_comm, Nat.add_mul_mod_self_right,
        Nat.mod_eq_of_lt hzlt]
  have hy0 : E &&& 0xFFF = ym := by
    rw [← hE, hencoded]
    have h2 : (0xFFF : Nat) = 2 ^ 12 - 1 := by norm_num
    rw [h2, Nat.and_pow_two_sub_one_eq_mod]
    have h1 : xm * 2 ^ 38 + zm * 2 ^ 12 + ym =
        (xm * 2 ^ 26 + zm) * 2 ^ 12 + ym := by ring
    rw [h1, Nat.add_comm, Nat.add_mul_mod_self_right, Nat.mod_eq_of_lt (by omega)]
  rw [hx0, hz0, hy0]
  simp only [Position.mk.injEq]
  refine ⟨?_, ?_, ?_⟩
  · -- x sign extension
    split
    · next hc => omega
    · next hc => push_neg at hc; omega
  · split
    · next hc => omega
    · next hc => push_neg at hc; omega
  · split
    · next hc => omega
    · next hc => push_neg at hc; omega

/-- C9 witness at the concrete position `(5, -3, -7)`. -/
theorem c9_position_roundtrip_witness :
    (BlockChangePacket.read (BlockChangePacket.write ⟨⟨5, -3, -7⟩, 1⟩ Buffer.empty)).map
        (fun r => r.1.position) = .ok ⟨5, -3, -7⟩ :=
  c9_position_roundtrip ⟨⟨5, -3, -7⟩, 1⟩ (by norm_num) (by norm_num) (by norm_num)
    (by norm_num) (by norm_num) (by norm_num)

end PigeonMC
